import Mathlib

/-!
# Verification of the merkle-merge-tree repository

A shallow embedding of the repository's two implementations:

* `src/main.py` — disk-blob perfect merkle trees (`Tree`), forests of trees
  of strictly decreasing heights (`Forest`), the streaming equal-height
  `Tree.merge`, and the binary-search `Tree.find_left`.
* `src/exclusion_tlog.py` — in-memory merkle trees (`MerkleTree` over
  `MerkleNode`), inclusion and exclusion proofs, and the `ExclusionTLog`
  forest wrapper.

Bytes are modelled as `List Nat` (each element a byte value).  The hash
collaborator (Python `hashlib.sha256`) is embedded as a concrete executable
SHA-256 over byte lists so that all programs evaluate on concrete inputs.
-/

set_option maxRecDepth 100000

deriving instance DecidableEq for Except

namespace MMT

/-- A byte string: a list of byte values (each `< 256` in intended use). -/
abbrev Bytes := List Nat

/-! ## SHA-256 (the hash collaborator, `hashlib.sha256`)

A direct FIPS 180-4 implementation over byte lists, operating on 32-bit
words represented as `Nat` reduced modulo `2^32`. -/

/-- Truncate to a 32-bit word. -/
def w32 (x : Nat) : Nat := x % 4294967296

/-- Right-rotate a 32-bit word by `n` bits. -/
def rotr (n x : Nat) : Nat := w32 ((x >>> n) ||| (x <<< (32 - n)))

/-- SHA-256 big sigma 0. -/
def bsig0 (x : Nat) : Nat := (rotr 2 x) ^^^ (rotr 13 x) ^^^ (rotr 22 x)

/-- SHA-256 big sigma 1. -/
def bsig1 (x : Nat) : Nat := (rotr 6 x) ^^^ (rotr 11 x) ^^^ (rotr 25 x)

/-- SHA-256 small sigma 0. -/
def ssig0 (x : Nat) : Nat := (rotr 7 x) ^^^ (rotr 18 x) ^^^ (x >>> 3)

/-- SHA-256 small sigma 1. -/
def ssig1 (x : Nat) : Nat := (rotr 17 x) ^^^ (rotr 19 x) ^^^ (x >>> 10)

/-- SHA-256 choice function. -/
def chF (e f g : Nat) : Nat := (e &&& f) ^^^ ((4294967295 ^^^ e) &&& g)

/-- SHA-256 majority function. -/
def majF (a b c : Nat) : Nat := (a &&& b) ^^^ (a &&& c) ^^^ (b &&& c)

/-- The 64 SHA-256 round constants. -/
def sha256K : List Nat :=
  [1116352408, 1899447441, 3049323471, 3921009573, 961987163, 1508970993,
   2453635748, 2870763221, 3624381080, 310598401, 607225278, 1426881987,
   1925078388, 2162078206, 2614888103, 3248222580, 3835390401, 4022224774,
   264347078, 604807628, 770255983, 1249150122, 1555081692, 1996064986,
   2554220882, 2821834349, 2952996808, 3210313671, 3336571891, 3584528711,
   113926993, 338241895, 666307205, 773529912, 1294757372, 1396182291,
   1695183700, 1986661051, 2177026350, 2456956037, 2730485921, 2820302411,
   3259730800, 3345764771, 3516065817, 3600352804, 4094571909, 275423344,
   430227734, 506948616, 659060556, 883997877, 958139571, 1322822218,
   1537002063, 1747873779, 1955562222, 2024104815, 2227730452, 2361852424,
   2428436474, 2756734187, 3204031479, 3329325298]

/-- The SHA-256 initial hash state. -/
def sha256H0 : List Nat :=
  [1779033703, 3144134277, 1013904242, 2773480762,
   1359893119, 2600822924, 528734635, 1541459225]

/-- FIPS 180-4 message padding: append `0x80`, zero bytes to 56 mod 64, then
the 64-bit big-endian bit length. -/
def sha256Pad (msg : Bytes) : Bytes :=
  let L := msg.length
  let zeros := (64 + 56 - (L + 1) % 64) % 64
  let bits := L * 8
  msg ++ [128] ++ List.replicate zeros 0 ++
    [w32 (bits >>> 56) % 256, (bits >>> 48) % 256, (bits >>> 40) % 256,
     (bits >>> 32) % 256, (bits >>> 24) % 256, (bits >>> 16) % 256,
     (bits >>> 8) % 256, bits % 256]

/-- Pack bytes (big-endian, 4 at a time) into 32-bit words. -/
def bytesToWords : Bytes → List Nat
  | a :: b :: c :: d :: rest =>
      ((a <<< 24) ||| (b <<< 16) ||| (c <<< 8) ||| d) :: bytesToWords rest
  | _ => []

/-- Split a byte list into 64-byte blocks (fuel-based structural recursion so
that the kernel can evaluate it; the fuel `l.length` always suffices). -/
def toBlocksF : Nat → Bytes → List Bytes
  | _, [] => []
  | 0, _ :: _ => []
  | n + 1, a :: t => ((a :: t).take 64) :: toBlocksF n ((a :: t).drop 64)

/-- Split a byte list into 64-byte blocks. -/
def toBlocks (l : Bytes) : List Bytes := toBlocksF l.length l

/-- Extend a (reversed) message-schedule list by one word. -/
def schedStep (ws : List Nat) : List Nat :=
  w32 (ssig1 (ws.getD 1 0) + ws.getD 6 0 + ssig0 (ws.getD 14 0) + ws.getD 15 0) :: ws

/-- The 64-entry message schedule of one block (given its 16 words). -/
def sha256Schedule (w16 : List Nat) : List Nat :=
  (Nat.rec w16.reverse (fun _ ih => schedStep ih) 48 : List Nat).reverse

/-- One compression round: state `(a,b,c,d,e,f,g,h)`, round constant and
schedule word. -/
def sha256Round (st : List Nat) (kw : Nat × Nat) : List Nat :=
  match st with
  | [a, b, c, d, e, f, g, h] =>
      let t1 := w32 (h + bsig1 e + chF e f g + kw.1 + kw.2)
      let t2 := w32 (bsig0 a + majF a b c)
      [w32 (t1 + t2), a, b, c, w32 (d + t1), e, f, g]
  | st => st

/-- Compress one 64-byte block into the running state. -/
def sha256Block (st : Bytes) (block : Bytes) : List Nat :=
  let ws := sha256Schedule (bytesToWords block)
  let st' := (List.zip sha256K ws).foldl sha256Round st
  List.zipWith (fun x y => w32 (x + y)) st st'

/-- Unpack 32-bit words into big-endian bytes. -/
def wordsToBytes : List Nat → Bytes
  | [] => []
  | w :: rest => (w >>> 24) % 256 :: (w >>> 16) % 256 :: (w >>> 8) % 256 :: w % 256 ::
      wordsToBytes rest

/-- SHA-256 of a byte string, as 32 digest bytes.  This embeds the
`hashlib.sha256(...).digest()` collaborator. -/
def sha256 (msg : Bytes) : Bytes :=
  wordsToBytes ((toBlocks (sha256Pad msg)).foldl sha256Block sha256H0)

/-! ## Byte-string comparison

Python compares `bytes` lexicographically (a strict prefix is smaller).
`bytesLt` embeds Python's `<` on `bytes`; it is what `heapq.merge`,
`find_left` and `sorted` consult. -/

/-- Python `<` on byte strings: lexicographic, strict prefix is smaller. -/
def bytesLt : Bytes → Bytes → Bool
  | [], [] => false
  | [], _ :: _ => true
  | _ :: _, [] => false
  | a :: as_, b :: bs => if a < b then true else if b < a then false else bytesLt as_ bs

/-- Python `<=` on byte strings, derived from `<` of the flipped pair. -/
def bytesLe (a b : Bytes) : Bool := !(bytesLt b a)

/-! ## `src/main.py`: blob-backed trees and forests -/

/-- Python `int.bit_length`, with structural fuel so the kernel can
evaluate it (`bitLenF f n` is correct whenever `n ≤ f`). -/
def bitLenF : Nat → Nat → Nat
  | _, 0 => 0
  | 0, _ + 1 => 0
  | f + 1, n + 1 => bitLenF f ((n + 1) / 2) + 1

/-- Python `int.bit_length`. -/
def bitLen (n : Nat) : Nat := bitLenF n n

/-- `count_trailing_ones` from `main.py`:
`(n ^ (n + 1)).bit_length() - 1`. -/
def count_trailing_ones (n : Nat) : Nat :=
  bitLen (n ^^^ (n + 1)) - 1

/-- A `main.py` `Tree`: a height and a blob of 32-byte slots.  The Python
object stores an open `BinaryIO`; the blob is that file's contents, one
list entry per 32-byte slot. -/
structure Tree where
  height : Nat
  blob : List Bytes
  deriving DecidableEq, Repr

namespace Tree

/-- `Tree.cardinality`, computed in `__init__`: `2**(height-1)` leaves. -/
def cardinality (t : Tree) : Nat := 2 ^ (t.height - 1)

/-- `Tree.get_data_entry(idx)`: seek `idx*32` and read 32 bytes.  A read
past the end of the file yields the empty byte string. -/
def get_data_entry (t : Tree) (idx : Nat) : Bytes := t.blob.getD idx []

/-- `Tree.root`, computed in `__init__`: the slot at index `2**height - 2`. -/
def root (t : Tree) : Bytes := t.get_data_entry (2 ^ t.height - 2)

/-- The body of `Tree.__iter__`: starting at slot position `pos` with leaf
counter `i`, yield `n` more leaves, skipping `count_trailing_ones i` interior
slots after the `i`-th leaf. -/
def iterLeavesAux (blob : List Bytes) : Nat → Nat → Nat → List Bytes
  | _, _, 0 => []
  | pos, i, n + 1 =>
      blob.getD pos [] :: iterLeavesAux blob (pos + 1 + count_trailing_ones i) (i + 1) n

/-- `Tree.__iter__`: the tree's leaves in storage order. -/
def leaves (t : Tree) : List Bytes := iterLeavesAux t.blob 0 0 t.cardinality

/-- `Tree._find_inner`: binary search over the blob accumulating a
(top-down) sibling path.  The Python code recurses on ranges with
`end - start` of the form `2^k - 1`; on the (unreachable from `find_left`)
degenerate range `end - start = 0` the Python recursion would not
terminate, so the guard here is `≤ 1` rather than `== 1`. -/
def _find_inner (t : Tree) (needle : Bytes) (proof : List (Nat × Bytes))
    (start end_ : Nat) : Bytes × List (Nat × Bytes) :=
  let mid := start + (end_ - start) / 2
  let mid_data := t.get_data_entry mid
  if h : end_ - start ≤ 1 then (mid_data, proof)
  else if bytesLt needle mid_data then
    _find_inner t needle (proof ++ [(0, t.get_data_entry (end_ - 2))]) start mid
  else
    _find_inner t needle (proof ++ [(1, t.get_data_entry (mid - 1))]) mid (end_ - 1)
  termination_by end_ - start
  decreasing_by
    · omega
    · omega

/-- `Tree.find_left(needle)`. -/
def find_left (t : Tree) (needle : Bytes) : Bytes × List (Nat × Bytes) :=
  t._find_inner needle [] 0 (2 ^ t.height - 1)

end Tree

/-- The internal-node hash used by `Tree.merge` in `main.py`:
`hashlib.sha256(a + b).digest()` — note: no domain tag. -/
def hashNodePy (a b : Bytes) : Bytes := sha256 (a ++ b)

/-- `heapq.merge` on two sorted leaf streams with structural fuel (the fuel
`xs.length + ys.length` always suffices): a stable two-way merge under
Python `<` (ties favour the first stream). -/
def mergeSortedF : Nat → List Bytes → List Bytes → List Bytes
  | _, [], ys => ys
  | _, x :: xs, [] => x :: xs
  | 0, _ :: _, _ :: _ => []
  | f + 1, x :: xs, y :: ys =>
      if bytesLt y x then y :: mergeSortedF f (x :: xs) ys
      else x :: mergeSortedF f xs (y :: ys)

/-- `heapq.merge` on two sorted leaf streams. -/
def mergeSorted (xs ys : List Bytes) : List Bytes :=
  mergeSortedF (xs.length + ys.length) xs ys

/-- Errors of `Tree.merge`: the explicit `ValueError` on differing heights,
a `pop` from a stack with fewer than two elements (`IndexError` in Python),
and the final `assert len(stack) == 1`. -/
inductive MergeError where
  | heightMismatch
  | stackUnderflow
  | assertFail
  deriving DecidableEq, Repr

/-- The inner `for _ in range(count_trailing_ones(i))` loop of `Tree.merge`:
pop two, hash, emit, push — `k` times. -/
def reduceN : Nat → List Bytes → List Bytes → Except MergeError (List Bytes × List Bytes)
  | 0, stack, out => .ok (stack, out)
  | k + 1, b :: a :: rest, out =>
      let h := hashNodePy a b
      reduceN k (h :: rest) (out ++ [h])
  | _ + 1, _, _ => .error .stackUnderflow

/-- The main loop of `Tree.merge`: for each entry (at global index `i`),
emit and push it, then run the inner reduction loop. -/
def mergeLoop : List Bytes → List Bytes → List Bytes → Nat →
    Except MergeError (List Bytes × List Bytes)
  | [], stack, out, _ => .ok (stack, out)
  | e :: rest, stack, out, i => do
      let (stack', out') ← reduceN (count_trailing_ones i) (e :: stack) (out ++ [e])
      mergeLoop rest stack' out' (i + 1)

/-- `Tree.merge`: refuse differing heights, stream the stable sorted merge
of both trees' leaves through the hashing stack, check the final assertion,
and wrap the written blob as a tree of height `height + 1`.  (The temp-file
rename and input-blob deletion are blob-store effects outside the data
model.) -/
def Tree.merge (a other : Tree) : Except MergeError Tree :=
  if a.height ≠ other.height then .error .heightMismatch
  else do
    let (stack, out) ← mergeLoop (mergeSorted a.leaves other.leaves) [] [] 0
    if stack.length = 1 then .ok ⟨a.height + 1, out⟩
    else .error .assertFail

/-! ### `main.py` `Forest` -/

/-- The validation loop of `Forest.__init__`: heights must be strictly
decreasing (the first tree is compared against `float("Inf")`, i.e. always
accepted).  Returns `none` when the `ValueError("non-canonical tree order")`
fires. -/
def checkCanonical : Option Nat → List Tree → Bool
  | _, [] => true
  | none, t :: rest => checkCanonical (some t.height) rest
  | some prev, t :: rest =>
      if t.height ≥ prev then false else checkCanonical (some t.height) rest

/-- `Forest.__init__`: validate the tuple of trees. -/
def forestInit (trees : List Tree) : Option (List Tree) :=
  if checkCanonical none trees then some trees else none

/-- `Forest.root`: the incremental SHA-256 over the concatenated tree
roots (`h.update(tree.root)` per tree, then `h.digest()`). -/
def forestRoot (trees : List Tree) : Bytes :=
  sha256 (trees.foldl (fun acc t => acc ++ t.root) [])

/-- `Forest.cardinality`: the sum of the tree cardinalities. -/
def forestCardinality (trees : List Tree) : Nat :=
  trees.foldl (fun acc t => acc + t.cardinality) 0

/-- The `while` loop of `Forest.add`, walking the tree tuple from the right
and merging while heights match (`accumulator |= self.trees[-i]`, i.e. the
accumulator is the LEFT operand of the merge).  Takes the trees in reversed
order; returns the unmerged (still reversed) remainder and the accumulator. -/
def addLoop : List Tree → Tree → Except MergeError (List Tree × Tree)
  | [], acc => .ok ([], acc)
  | t :: rest, acc =>
      if t.height = acc.height then do
        let m ← acc.merge t
        addLoop rest m
      else .ok (t :: rest, acc)

/-- `Forest.add(entry)`: require a 32-byte entry, make a height-1 tree of
it, carry-merge with equal-height trees from the right, and construct the
new forest (whose constructor re-validates canonicity).  `none` is any
raised error. -/
def forestAdd (trees : List Tree) (entry : Bytes) : Option (List Tree) :=
  if entry.length ≠ 32 then none
  else
    match addLoop trees.reverse ⟨1, [entry]⟩ with
    | .error _ => none
    | .ok (restRev, acc) => forestInit (restRev.reverse ++ [acc])

/-- Fold `Forest.add` over a list of entries, starting from a given forest. -/
def addAll (trees : List Tree) : List Bytes → Option (List Tree)
  | [] => some trees
  | e :: es => match forestAdd trees e with
    | none => none
    | some f => addAll f es

/-! ## `src/exclusion_tlog.py`

Values are modelled as natural numbers (the tests exercise ints;
`json.dumps` encodes an int as its decimal ASCII digits).  `MerkleNode`
instances constructed by the code are exactly leaves (a value, no
children) and internal nodes (both children present), which the inductive
below captures. -/

/-- Decimal ASCII digits with structural fuel (`natDecimalF f n` is the
decimal encoding whenever the digit count is at most `f + 1`). -/
def natDecimalF : Nat → Nat → Bytes
  | 0, n => [48 + n]
  | f + 1, n => if n < 10 then [48 + n] else natDecimalF f (n / 10) ++ [48 + n % 10]

/-- Decimal ASCII encoding of a natural number (`json.dumps` for a
non-negative int). -/
def natDecimal (n : Nat) : Bytes := natDecimalF n n

/-- `hash_value`: `sha256(b'LEAF:' + data)` where `data` is the JSON
encoding of the value. -/
def hash_value (v : Nat) : Bytes := sha256 ([76, 69, 65, 70, 58] ++ natDecimal v)

/-- `hash_pair`: `sha256(b'NODE:' + left + right)`. -/
def hash_pair (left right : Bytes) : Bytes :=
  sha256 ([78, 79, 68, 69, 58] ++ left ++ right)

/-- `hash_roots`: `sha256(b'EMPTY:')` for an empty list, otherwise
`sha256(b'FOREST:' + concatenation of the roots)`. -/
def hash_roots (root_hashes : List Bytes) : Bytes :=
  match root_hashes with
  | [] => sha256 [69, 77, 80, 84, 89, 58]
  | _ => sha256 ([70, 79, 82, 69, 83, 84, 58] ++ root_hashes.foldl (· ++ ·) [])

/-- A `MerkleNode`: a leaf holds a value (and its hash), an internal node
holds its two children (and its hash). -/
inductive MerkleNode where
  | leaf (hash : Bytes) (value : Nat)
  | node (hash : Bytes) (left right : MerkleNode)
  deriving DecidableEq, Repr

namespace MerkleNode

/-- The `hash` field of a node. -/
def hash : MerkleNode → Bytes
  | .leaf h _ => h
  | .node h _ _ => h

/-- `MerkleNode.is_leaf`. -/
def is_leaf : MerkleNode → Bool
  | .leaf _ _ => true
  | .node _ _ _ => false

end MerkleNode

/-- `_subtree_size`: number of leaves under a node. -/
def _subtree_size : MerkleNode → Nat
  | .leaf _ _ => 1
  | .node _ l r => _subtree_size l + _subtree_size r

/-- One pairing pass of `_merge_nodes`: adjacent nodes become a parent
hashed with `hash_pair`; an odd trailing node is promoted. -/
def pairUp : List MerkleNode → List MerkleNode
  | [] => []
  | [x] => [x]
  | a :: b :: rest => .node (hash_pair a.hash b.hash) a b :: pairUp rest

/-- `_merge_nodes` with explicit fuel (the Python recursion halves the list
length each pass; fuel `nodes.length` always suffices, and the Python
function does not terminate on `[]`, which the impossible fuel-exhaustion
and empty cases return a dummy leaf for). -/
def mergeNodesF : Nat → List MerkleNode → MerkleNode
  | _, [x] => x
  | 0, _ => .leaf [] 0
  | _ + 1, [] => .leaf [] 0
  | n + 1, a :: b :: rest => mergeNodesF n (pairUp (a :: b :: rest))

/-- `_merge_nodes`. -/
def _merge_nodes (nodes : List MerkleNode) : MerkleNode :=
  mergeNodesF nodes.length nodes

/-- `_collect_siblings`, returning the appended sibling list (top-down) and
the boolean result.  The `total_leaves` parameter of the Python function is
unused, as in the source. -/
def _collect_siblings (node : MerkleNode) (target_idx : Nat) (current_start : Nat) :
    List (Bytes × Bool) × Bool :=
  match node with
  | .leaf _ _ => ([], current_start == target_idx)
  | .node _ l r =>
      let left_size := _subtree_size l
      if target_idx < current_start + left_size then
        let (sibs, found) := _collect_siblings l target_idx current_start
        ((r.hash, false) :: sibs, found)
      else
        let (sibs, found) := _collect_siblings r target_idx (current_start + left_size)
        ((l.hash, true) :: sibs, found)

/-- `MerkleTree`: a root node and the sorted list of values. -/
structure MerkleTree where
  root : MerkleNode
  sorted_values : List Nat
  deriving DecidableEq, Repr

/-- `MerkleTree.root_hash`. -/
def MerkleTree.root_hash (t : MerkleTree) : Bytes := t.root.hash

/-- Insert into a sorted list (ascending). -/
def insertSorted (x : Nat) : List Nat → List Nat
  | [] => [x]
  | y :: ys => if x ≤ y then x :: y :: ys else y :: insertSorted x ys

/-- Python `sorted` on a list of ints. -/
def sortNat (l : List Nat) : List Nat := l.foldr insertSorted []

/-- The leaf node built for a value. -/
def mkLeaf (v : Nat) : MerkleNode := .leaf (hash_value v) v

/-- `ExclusionTLog.add_batch` run on a fresh log (also
`MerkleTree.create_single` for a one-element list, and the body of
`MerkleTree.merge_trees` applied to the concatenation of two value lists):
sort the values, build leaves, merge into a tree. -/
def mkTree (values : List Nat) : MerkleTree :=
  let sv := sortNat values
  { root := _merge_nodes (sv.map mkLeaf), sorted_values := sv }

/-- `InclusionProof`. -/
structure InclusionProof where
  value : Nat
  leaf_hash : Bytes
  sibling_hashes : List (Bytes × Bool)
  root_hash : Bytes
  tree_index : Nat
  tree_root : Bytes
  deriving DecidableEq, Repr

/-- `InclusionProof.verify`: fold the sibling chain from the leaf hash and
compare with `root_hash`. -/
def InclusionProof.verify (p : InclusionProof) : Bool :=
  (p.sibling_hashes.foldl
      (fun current sib =>
        if sib.2 then hash_pair sib.1 current else hash_pair current sib.1)
      p.leaf_hash) == p.root_hash

/-- `ExclusionProof`.  The `root_hash` field is `Optional` because the
empty-forest branch of `prove_exclusion` stores `get_root_hash()`, which is
`None` there. -/
structure ExclusionProof where
  target : Nat
  predecessor : Option Nat
  successor : Option Nat
  predecessor_proof : Option InclusionProof
  successor_proof : Option InclusionProof
  root_hash : Option Bytes
  deriving DecidableEq, Repr

/-- `ExclusionProof.verify`: both present inclusion proofs must verify and
the bracketing must be strict.  The `root_hash` field is not consulted. -/
def ExclusionProof.verify (p : ExclusionProof) : Bool :=
  if p.predecessor_proof.any (fun ip => !ip.verify) then false
  else if p.successor_proof.any (fun ip => !ip.verify) then false
  else if p.predecessor.any (fun v => v ≥ p.target) then false
  else if p.successor.any (fun v => v ≤ p.target) then false
  else true

/-! ### `ExclusionTLog` operations (over its list of trees) -/

/-- `ExclusionTLog.contains`. -/
def tlogContains (trees : List MerkleTree) (value : Nat) : Bool :=
  trees.any (fun t => t.sorted_values.contains value)

/-- The enumeration loop of `_find_tree_containing`. -/
def ftcGo (value : Nat) : Nat → List MerkleTree → Option (Nat × MerkleTree)
  | _, [] => none
  | i, t :: ts => if t.sorted_values.contains value then some (i, t) else ftcGo value (i + 1) ts

/-- `ExclusionTLog._find_tree_containing`. -/
def findTreeContaining (trees : List MerkleTree) (value : Nat) :
    Option (Nat × MerkleTree) :=
  ftcGo value 0 trees

/-- `ExclusionTLog.get_all_values`: concatenate and sort. -/
def getAllValues (trees : List MerkleTree) : List Nat :=
  sortNat (trees.foldl (fun acc t => acc ++ t.sorted_values) [])

/-- `ExclusionTLog.get_root_hash`: `None` for an empty forest, the bare
tree root for a single tree, `hash_roots` of all roots otherwise. -/
def getRootHash (trees : List MerkleTree) : Option Bytes :=
  match trees with
  | [] => none
  | [t] => some t.root_hash
  | ts => some (hash_roots (ts.map MerkleTree.root_hash))

/-- `ExclusionTLog.prove_inclusion`. -/
def proveInclusion (trees : List MerkleTree) (value : Nat) : Option InclusionProof :=
  match findTreeContaining trees value with
  | none => none
  | some (tree_idx, tree) =>
      let leaf_hash := hash_value value
      let leaf_idx := tree.sorted_values.indexOf value
      let sibling_hashes := (_collect_siblings tree.root leaf_idx 0).1.reverse
      some { value := value, leaf_hash := leaf_hash,
             sibling_hashes := sibling_hashes,
             root_hash := tree.root_hash,
             tree_index := tree_idx, tree_root := tree.root_hash }

/-- The predecessor/successor scan of `prove_exclusion` (the `for v in
all_values` loop with its early `break`). -/
def predSuccLoop (value : Nat) : List Nat → Option Nat → Option Nat × Option Nat
  | [], pred => (pred, none)
  | v :: rest, pred =>
      if v < value then predSuccLoop value rest (some v)
      else if v > value then (pred, some v)
      else predSuccLoop value rest pred

/-- The `prove_inclusion(...) if ... is not None else None` conditionals of
`prove_exclusion`. -/
def inclOpt (trees : List MerkleTree) : Option Nat → Option InclusionProof
  | some v => proveInclusion trees v
  | none => none

/-- The `overall_root` if/elif/else of `prove_exclusion` (the final branch
models Python's `x if x else b''` on the optional root hash). -/
def overallRoot (trees : List MerkleTree) :
    Option InclusionProof → Option InclusionProof → Bytes
  | some pp, _ => pp.root_hash
  | none, some sp => sp.root_hash
  | none, none => (getRootHash trees).getD []

/-- `ExclusionTLog.prove_exclusion`. -/
def proveExclusion (trees : List MerkleTree) (value : Nat) : Option ExclusionProof :=
  if tlogContains trees value then none
  else if (getAllValues trees).isEmpty then
    some (ExclusionProof.mk value none none none none (getRootHash trees))
  else
    match predSuccLoop value (getAllValues trees) none with
    | (predecessor, successor) =>
        some (ExclusionProof.mk value predecessor successor
          (inclOpt trees predecessor) (inclOpt trees successor)
          (some (overallRoot trees (inclOpt trees predecessor)
            (inclOpt trees successor))))

/-! ## Arithmetic lemmas: `bit_length` and `count_trailing_ones` -/

theorem bitLenF_zero : ∀ (f : Nat), bitLenF f 0 = 0
  | 0 => rfl
  | _ + 1 => rfl

theorem bitLenF_congr : ∀ (n f1 f2 : Nat), n ≤ f1 → n ≤ f2 →
    bitLenF f1 n = bitLenF f2 n
  | 0, f1, f2, _, _ => by rw [bitLenF_zero, bitLenF_zero]
  | m + 1, g1 + 1, g2 + 1, h1, h2 => by
      simp only [bitLenF]
      rw [bitLenF_congr ((m + 1) / 2) g1 g2 (by omega) (by omega)]
  termination_by n => n

theorem bitLen_succ (n : Nat) : bitLen (n + 1) = bitLen ((n + 1) / 2) + 1 := by
  show bitLenF n ((n + 1) / 2) + 1 = bitLenF ((n + 1) / 2) ((n + 1) / 2) + 1
  rw [bitLenF_congr ((n + 1) / 2) n ((n + 1) / 2) (by omega) (by omega)]

theorem bitLen_of_pos {n : Nat} (h : n ≠ 0) : bitLen n = bitLen (n / 2) + 1 := by
  obtain ⟨m, rfl⟩ := Nat.exists_eq_succ_of_ne_zero h
  exact bitLen_succ m

theorem bitLen_pos {n : Nat} (h : n ≠ 0) : 1 ≤ bitLen n := by
  rw [bitLen_of_pos h]; omega

theorem xor_two_mul_succ (m : Nat) : (2 * m) ^^^ (2 * m + 1) = 1 := by
  apply Nat.eq_of_testBit_eq
  intro i
  have h0 : (2 * m) % 2 = 0 := by omega
  have h1 : (2 * m + 1) % 2 = 1 := by omega
  have h2 : (2 * m) / 2 = m := by omega
  have h3 : (2 * m + 1) / 2 = m := by omega
  cases i with
  | zero =>
      rw [Nat.testBit_xor]
      simp only [Nat.testBit_zero, h0, h1]
      decide
  | succ j =>
      rw [Nat.testBit_xor, Nat.testBit_succ, Nat.testBit_succ, Nat.testBit_succ, h2, h3]
      simp only [show (1 : Nat) / 2 = 0 by omega, Nat.zero_testBit, Bool.xor_self]

theorem xor_odd_succ (m : Nat) :
    (2 * m + 1) ^^^ (2 * m + 2) = 2 * (m ^^^ (m + 1)) + 1 := by
  apply Nat.eq_of_testBit_eq
  intro i
  have h0 : (2 * m + 1) % 2 = 1 := by omega
  have h1 : (2 * m + 2) % 2 = 0 := by omega
  have h2 : (2 * m + 1) / 2 = m := by omega
  have h3 : (2 * m + 2) / 2 = m + 1 := by omega
  have h4 : (2 * (m ^^^ (m + 1)) + 1) % 2 = 1 := by omega
  have h5 : (2 * (m ^^^ (m + 1)) + 1) / 2 = m ^^^ (m + 1) := by omega
  cases i with
  | zero =>
      rw [Nat.testBit_xor]
      simp only [Nat.testBit_zero, h0, h1, h4]
      decide
  | succ j =>
      rw [Nat.testBit_xor, Nat.testBit_succ, Nat.testBit_succ, Nat.testBit_succ, h2, h3, h5]
      rw [Nat.testBit_xor]

theorem ctz1_two_mul (m : Nat) : count_trailing_ones (2 * m) = 0 := by
  unfold count_trailing_ones
  rw [xor_two_mul_succ m]
  rfl

theorem ctz1_zero : count_trailing_ones 0 = 0 := ctz1_two_mul 0

theorem ctz1_odd (m : Nat) :
    count_trailing_ones (2 * m + 1) = count_trailing_ones m + 1 := by
  unfold count_trailing_ones
  have hx : m ^^^ (m + 1) ≠ 0 := by
    intro h
    have := Nat.xor_eq_zero.mp h
    omega
  rw [show 2 * m + 1 + 1 = 2 * m + 2 from rfl, xor_odd_succ m,
    bitLen_of_pos (by omega), show (2 * (m ^^^ (m + 1)) + 1) / 2 = m ^^^ (m + 1) by omega]
  have := bitLen_pos hx
  omega

/-! ## Order lemmas for byte-string comparison -/

theorem bytesLt_asymm : ∀ (a b : Bytes), bytesLt a b = true → bytesLt b a = false
  | [], [], h => by simp [bytesLt]
  | [], _ :: _, _ => by simp [bytesLt]
  | _ :: _, [], h => by simp [bytesLt] at h
  | a :: as_, b :: bs, h => by
      simp only [bytesLt] at h ⊢
      rcases Nat.lt_trichotomy a b with hlt | heq | hgt
      · simp [hlt, Nat.lt_asymm hlt, Nat.ne_of_lt hlt]
      · subst heq
        simp only [Nat.lt_irrefl, if_false] at h ⊢
        exact bytesLt_asymm as_ bs h
      · simp [hgt, Nat.lt_asymm hgt] at h

theorem bytesLt_split : ∀ (b a c : Bytes), bytesLt a c = true →
    bytesLt a b = true ∨ bytesLt b c = true
  | _, [], [], h => by simp [bytesLt] at h
  | [], [], _ :: _, _ => by simp [bytesLt]
  | _ :: _, [], _ :: _, _ => by simp [bytesLt]
  | _, _ :: _, [], h => by simp [bytesLt] at h
  | [], _ :: _, _ :: _, _ => by simp [bytesLt]
  | b :: bs, a :: as_, c :: cs, h => by
      simp only [bytesLt] at h ⊢
      rcases Nat.lt_trichotomy a c with hac | hac | hac
      · rcases Nat.lt_trichotomy a b with hab | hab | hab
        · left; simp [hab]
        · subst hab
          right
          simp only [hac, if_true]
        · right
          have : b < c := by omega
          simp [this]
      · subst hac
        simp only [Nat.lt_irrefl, if_false] at h
        rcases Nat.lt_trichotomy a b with hab | hab | hab
        · left; simp [hab]
        · subst hab
          simp only [Nat.lt_irrefl, if_false]
          exact bytesLt_split bs as_ cs h
        · right; simp [hab]
      · simp [Nat.lt_asymm hac, hac] at h

/-- Transitivity of the non-strict order `¬ (· < ·)` on byte strings. -/
theorem bytesLe_trans {a b c : Bytes} (h1 : bytesLt b a = false)
    (h2 : bytesLt c b = false) : bytesLt c a = false := by
  by_contra h
  rcases bytesLt_split b c a (by revert h; cases bytesLt c a <;> simp) with h3 | h3
  · rw [h2] at h3; cases h3
  · rw [h1] at h3; cases h3

/-- Mixed transitivity: `a < b` and `b ≤ c` give `a < c`. -/
theorem bytesLt_of_lt_of_le {a b c : Bytes} (h1 : bytesLt a b = true)
    (h2 : bytesLt c b = false) : bytesLt a c = true := by
  rcases bytesLt_split c a b h1 with h3 | h3
  · exact h3
  · rw [h2] at h3; cases h3

/-! ## Sortedness and the stable merge -/

/-- Non-decreasing byte strings (Python `<` never holds right-to-left). -/
def sortedB (l : List Bytes) : Prop := l.Pairwise (fun a b => bytesLt b a = false)

instance sortedB.instDecidable (l : List Bytes) : Decidable (sortedB l) :=
  inferInstanceAs (Decidable (l.Pairwise _))

theorem mergeSortedF_nil (f : Nat) (ys : List Bytes) : mergeSortedF f [] ys = ys := by
  cases f <;> rfl

theorem mergeSortedF_nil_right (f : Nat) (x : Bytes) (xs : List Bytes) :
    mergeSortedF f (x :: xs) [] = x :: xs := by
  cases f <;> rfl

theorem mergeSortedF_congr : ∀ (f1 f2 : Nat) (xs ys : List Bytes),
    xs.length + ys.length ≤ f1 → xs.length + ys.length ≤ f2 →
    mergeSortedF f1 xs ys = mergeSortedF f2 xs ys
  | f1, f2, [], ys, _, _ => by rw [mergeSortedF_nil, mergeSortedF_nil]
  | f1, f2, x :: xs, [], _, _ => by rw [mergeSortedF_nil_right, mergeSortedF_nil_right]
  | g1 + 1, g2 + 1, x :: xs, y :: ys, h1, h2 => by
      simp only [List.length_cons] at h1 h2
      simp only [mergeSortedF]
      rw [mergeSortedF_congr g1 g2 (x :: xs) ys (by simp; omega) (by simp; omega),
        mergeSortedF_congr g1 g2 xs (y :: ys) (by simp; omega) (by simp; omega)]
  termination_by _ _ xs ys => xs.length + ys.length

theorem mergeSorted_nil (ys : List Bytes) : mergeSorted [] ys = ys :=
  mergeSortedF_nil _ _

theorem mergeSorted_nil_right (x : Bytes) (xs : List Bytes) :
    mergeSorted (x :: xs) [] = x :: xs :=
  mergeSortedF_nil_right _ _ _

theorem mergeSorted_cons (x y : Bytes) (xs ys : List Bytes) :
    mergeSorted (x :: xs) (y :: ys) =
      if bytesLt y x then y :: mergeSorted (x :: xs) ys
      else x :: mergeSorted xs (y :: ys) := by
  show mergeSortedF ((x :: xs).length + (y :: ys).length) _ _ = _
  rw [show (x :: xs).length + (y :: ys).length = (xs.length + ys.length + 1) + 1 by
    simp [List.length_cons]; omega]
  simp only [mergeSortedF]
  rw [mergeSortedF_congr (xs.length + ys.length + 1) ((x :: xs).length + ys.length)
      (x :: xs) ys (by simp; omega) (by simp),
    mergeSortedF_congr (xs.length + ys.length + 1) (xs.length + (y :: ys).length)
      xs (y :: ys) (by simp; omega) (by simp)]
  rfl

theorem mergeSorted_perm : ∀ (xs ys : List Bytes),
    (mergeSorted xs ys).Perm (xs ++ ys)
  | [], ys => by simp [mergeSorted_nil]
  | _ :: _, [] => by simp [mergeSorted_nil_right]
  | x :: xs, y :: ys => by
      rw [mergeSorted_cons]
      split
      · exact ((mergeSorted_perm (x :: xs) ys).cons y).trans List.perm_middle.symm
      · exact (mergeSorted_perm xs (y :: ys)).cons x
  termination_by xs ys => xs.length + ys.length

theorem mem_mergeSorted {z : Bytes} {xs ys : List Bytes} :
    z ∈ mergeSorted xs ys ↔ z ∈ xs ∨ z ∈ ys := by
  rw [(mergeSorted_perm xs ys).mem_iff, List.mem_append]

theorem mergeSorted_sorted : ∀ {xs ys : List Bytes},
    sortedB xs → sortedB ys → sortedB (mergeSorted xs ys)
  | [], ys, _, hy => by rw [mergeSorted_nil]; exact hy
  | x :: xs, [], hx, _ => by rw [mergeSorted_nil_right]; exact hx
  | x :: xs, y :: ys, hx, hy => by
      rw [sortedB, List.pairwise_cons] at hx hy
      rw [mergeSorted_cons]
      split
      case isTrue h =>
        rw [sortedB, List.pairwise_cons]
        refine ⟨?_, mergeSorted_sorted (List.pairwise_cons.mpr hx) hy.2⟩
        intro z hz
        rcases mem_mergeSorted.mp hz with hz | hz
        · rcases List.mem_cons.mp hz with rfl | hz
          · exact bytesLt_asymm _ _ h
          · exact bytesLe_trans (bytesLt_asymm _ _ h) (hx.1 z hz)
        · exact hy.1 z hz
      case isFalse h =>
        rw [sortedB, List.pairwise_cons]
        refine ⟨?_, mergeSorted_sorted hx.2 (List.pairwise_cons.mpr hy)⟩
        intro z hz
        rcases mem_mergeSorted.mp hz with hz | hz
        · exact hx.1 z hz
        · rcases List.mem_cons.mp hz with rfl | hz
          · exact Bool.of_not_eq_true h
          · exact bytesLe_trans (Bool.of_not_eq_true h) (hy.1 z hz)
  termination_by xs ys => xs.length + ys.length

/-! ## The perfect-tree layout and its root

`buildRootH k L` is the root a fresh build from the `2^k` sorted leaves `L`
would produce; `layoutH k L` is the corresponding storage-order blob (each
internal node emitted right after its last descendant leaf). -/

/-- Root of a fresh perfect-tree build over `2^k` leaves (untagged
`main.py` node hash). -/
def buildRootH : Nat → List Bytes → Bytes
  | 0, l => l.headD []
  | k + 1, l => hashNodePy (buildRootH k (l.take (2 ^ k))) (buildRootH k (l.drop (2 ^ k)))

/-- Storage-order slot list of a perfect tree over `2^k` leaves. -/
def layoutH : Nat → List Bytes → List Bytes
  | 0, l => [l.headD []]
  | k + 1, l =>
      layoutH k (l.take (2 ^ k)) ++ layoutH k (l.drop (2 ^ k)) ++ [buildRootH (k + 1) l]

theorem layoutH_length : ∀ (k : Nat) (L : List Bytes),
    (layoutH k L).length = 2 ^ (k + 1) - 1
  | 0, L => rfl
  | k + 1, L => by
      simp only [layoutH, List.length_append, List.length_singleton,
        layoutH_length k]
      have : 2 ^ (k + 1 + 1) = 2 * 2 ^ (k + 1) := by ring
      have h1 : 1 ≤ 2 ^ (k + 1) := Nat.one_le_two_pow
      omega

/-- `getD` on the left part of an append. -/
theorem getD_append_left {α : Type} {l1 l2 : List α} {j : Nat} {d : α}
    (h : j < l1.length) :
    (l1 ++ l2).getD j d = l1.getD j d := by
  rw [List.getD_eq_getElem?_getD, List.getD_eq_getElem?_getD,
    List.getElem?_append_left h]

/-- `getD` past the left part of an append. -/
theorem getD_append_right {α : Type} {l1 l2 : List α} {j : Nat} {d : α}
    (h : l1.length ≤ j) :
    (l1 ++ l2).getD j d = l2.getD (j - l1.length) d := by
  rw [List.getD_eq_getElem?_getD, List.getD_eq_getElem?_getD,
    List.getElem?_append_right h]

theorem layoutH_root : ∀ (k : Nat) (L : List Bytes),
    (layoutH k L).getD (2 ^ (k + 1) - 2) [] = buildRootH k L
  | 0, L => rfl
  | k + 1, L => by
      simp only [layoutH]
      rw [List.append_assoc, getD_append_right (by rw [layoutH_length]; omega)]
      rw [layoutH_length]
      rw [getD_append_right (by rw [layoutH_length]; omega)]
      rw [layoutH_length]
      have h3 : 2 ^ (k + 1 + 1) = 2 * 2 ^ (k + 1) := by ring
      have h4 : 1 ≤ 2 ^ (k + 1) := Nat.one_le_two_pow
      rw [show 2 ^ (k + 1 + 1) - 2 - (2 ^ (k + 1) - 1) - (2 ^ (k + 1) - 1) = 0 by omega]
      rfl

theorem layoutH_head : ∀ (k : Nat) (L : List Bytes),
    (layoutH k L).getD 0 [] = L.headD []
  | 0, L => rfl
  | k + 1, L => by
      simp only [layoutH]
      rw [List.append_assoc, getD_append_left (by
        rw [layoutH_length]
        have : 1 < 2 ^ (k + 1) := Nat.one_lt_two_pow_iff.mpr (by omega)
        omega)]
      rw [layoutH_head k]
      cases L with
      | nil => simp
      | cons a t =>
          have : 1 ≤ 2 ^ k := Nat.one_le_two_pow
          cases hk : 2 ^ k with
          | zero => omega
          | succ n => simp [List.take_succ_cons]

/-! ## The streaming merge equals the fresh build -/

theorem reduceN_add (a b : Nat) : ∀ (stack out : List Bytes),
    reduceN (a + b) stack out =
      match reduceN a stack out with
      | .ok so => reduceN b so.1 so.2
      | .error e => .error e := by
  induction a with
  | zero => intro s o; simp [reduceN]
  | succ a ih =>
      intro s o
      rw [show a + 1 + b = (a + b) + 1 by omega]
      match s with
      | [] => simp [reduceN]
      | [x] => simp [reduceN]
      | b' :: a' :: rest => simp only [reduceN]; exact ih _ _

theorem mergeLoop_append : ∀ (A B s o : List Bytes) (i : Nat),
    mergeLoop (A ++ B) s o i =
      (mergeLoop A s o i).bind (fun so => mergeLoop B so.1 so.2 (i + A.length)) := by
  intro A
  induction A with
  | nil =>
      intro B s o i
      show mergeLoop B s o i = mergeLoop B s o (i + 0)
      rw [Nat.add_zero]
  | cons e A ih =>
      intro B s o i
      simp only [List.cons_append, mergeLoop]
      cases hred : reduceN (count_trailing_ones i) (e :: s) (o ++ [e]) with
      | error err => rfl
      | ok so =>
          show mergeLoop (A ++ B) so.1 so.2 (i + 1) =
            (mergeLoop A so.1 so.2 (i + 1)).bind
              (fun so2 => mergeLoop B so2.1 so2.2 (i + (e :: A).length))
          rw [ih B so.1 so.2 (i + 1)]
          simp only [List.length_cons]
          rw [show i + 1 + A.length = i + (A.length + 1) by omega]

/-- The central invariant of the streaming merge: processing a block of
`2^k` entries starting at a block-aligned global index `m * 2^k` emits
exactly the block's perfect-tree layout, leaves its root on the stack, and
then performs the `count_trailing_ones m` carry reductions of the enclosing
context. -/
theorem blockLemma : ∀ (k : Nat) (L : List Bytes), L.length = 2 ^ k →
    ∀ (m : Nat) (s o : List Bytes),
    mergeLoop L s o (m * 2 ^ k) =
      reduceN (count_trailing_ones m) (buildRootH k L :: s) (o ++ layoutH k L)
  | 0, L, hL, m, s, o => by
      obtain ⟨e, rfl⟩ : ∃ e, L = [e] := by
        cases L with
        | nil => simp at hL
        | cons a t =>
            cases t with
            | nil => exact ⟨a, rfl⟩
            | cons b t' => simp [List.length_cons] at hL
      rw [pow_zero, Nat.mul_one]
      show (mergeLoop [e] s o m) = reduceN (count_trailing_ones m) (e :: s) (o ++ [e])
      simp only [mergeLoop]
      cases hred : reduceN (count_trailing_ones m) (e :: s) (o ++ [e]) with
      | error err => rfl
      | ok so => rfl
  | k + 1, L, hL, m, s, o => by
      have h1 : (L.take (2 ^ k)).length = 2 ^ k := by
        rw [List.length_take]; omega
      have h2 : (L.drop (2 ^ k)).length = 2 ^ k := by
        rw [List.length_drop, hL]; have : 2 ^ (k + 1) = 2 * 2 ^ k := by ring
        omega
      have hsplit : L.take (2 ^ k) ++ L.drop (2 ^ k) = L := List.take_append_drop _ _
      conv_lhs => rw [← hsplit]
      rw [show m * 2 ^ (k + 1) = (2 * m) * 2 ^ k by ring]
      rw [mergeLoop_append]
      rw [blockLemma k (L.take (2 ^ k)) h1 (2 * m) s o]
      rw [ctz1_two_mul]
      simp only [reduceN, Except.bind]
      rw [h1, show (2 * m) * 2 ^ k + 2 ^ k = (2 * m + 1) * 2 ^ k by ring]
      rw [blockLemma k (L.drop (2 ^ k)) h2 (2 * m + 1) _ _]
      rw [ctz1_odd]
      simp only [reduceN, layoutH, buildRootH]
      simp only [List.append_assoc]

theorem mergeLoop_full (k : Nat) (L : List Bytes) (hL : L.length = 2 ^ k) :
    mergeLoop L [] [] 0 = .ok ([buildRootH k L], layoutH k L) := by
  have := blockLemma k L hL 0 [] []
  rw [Nat.zero_mul] at this
  rw [this, ctz1_zero]
  simp [reduceN]

/-! ## The leaf iterator reads back the layout's leaves -/

theorem iterLeavesAux_length : ∀ (n : Nat) (blob : List Bytes) (pos i : Nat),
    (Tree.iterLeavesAux blob pos i n).length = n
  | 0, _, _, _ => rfl
  | n + 1, blob, pos, i => by
      simp only [Tree.iterLeavesAux, List.length_cons, iterLeavesAux_length n]

theorem Tree.leaves_length (t : Tree) : t.leaves.length = t.cardinality :=
  iterLeavesAux_length _ _ _ _

/-- Reading `2^k` leaves of a block whose layout sits at position `p` of the
blob yields the block's leaves and leaves the scan just past the block (plus
the `count_trailing_ones m` slots of enclosing carries). -/
theorem iterLeaves_block : ∀ (k : Nat) (L : List Bytes), L.length = 2 ^ k →
    ∀ (blob : List Bytes) (p m extra : Nat),
    (∀ j, j < (layoutH k L).length → blob.getD (p + j) [] = (layoutH k L).getD j []) →
    Tree.iterLeavesAux blob p (m * 2 ^ k) (2 ^ k + extra) =
      L ++ Tree.iterLeavesAux blob (p + (2 ^ (k + 1) - 1) + count_trailing_ones m)
        ((m + 1) * 2 ^ k) extra
  | 0, L, hL, blob, p, m, extra, hcont => by
      obtain ⟨e, rfl⟩ : ∃ e, L = [e] := by
        cases L with
        | nil => simp at hL
        | cons a t =>
            cases t with
            | nil => exact ⟨a, rfl⟩
            | cons b t' => simp [List.length_cons] at hL
      have hgp : blob.getD (p + 0) [] = e := hcont 0 (by simp [layoutH])
      rw [Nat.add_zero] at hgp
      rw [pow_zero, Nat.mul_one, Nat.mul_one, Nat.add_comm 1 extra]
      show blob.getD p [] :: Tree.iterLeavesAux blob (p + 1 + count_trailing_ones m) (m + 1) extra
        = [e] ++ Tree.iterLeavesAux blob (p + (2 ^ (0 + 1) - 1) + count_trailing_ones m) (m + 1) extra
      rw [hgp]
      rfl
  | k + 1, L, hL, blob, p, m, extra, hcont => by
      have h1 : (L.take (2 ^ k)).length = 2 ^ k := by
        rw [List.length_take]; omega
      have h2 : (L.drop (2 ^ k)).length = 2 ^ k := by
        rw [List.length_drop, hL]; have : 2 ^ (k + 1) = 2 * 2 ^ k := by ring
        omega
      have hlay1 : (layoutH k (L.take (2 ^ k))).length = 2 ^ (k + 1) - 1 := layoutH_length _ _
      have hlay2 : (layoutH k (L.drop (2 ^ k))).length = 2 ^ (k + 1) - 1 := layoutH_length _ _
      -- containment of the left half's layout at `p`
      have hc1 : ∀ j, j < (layoutH k (L.take (2 ^ k))).length →
          blob.getD (p + j) [] = (layoutH k (L.take (2 ^ k))).getD j [] := by
        intro j hj
        have hj' : j < (layoutH (k + 1) L).length := by
          rw [layoutH_length]
          rw [hlay1] at hj
          have : 2 ^ (k + 1 + 1) = 2 * 2 ^ (k + 1) := by ring
          have : 1 ≤ 2 ^ (k + 1) := Nat.one_le_two_pow
          omega
        rw [hcont j hj']
        show (layoutH (k + 1) L).getD j [] = _
        simp only [layoutH]
        rw [List.append_assoc, getD_append_left (by rw [hlay1]; omega)]
      -- containment of the right half's layout at `p + (2^(k+1) - 1)`
      have hc2 : ∀ j, j < (layoutH k (L.drop (2 ^ k))).length →
          blob.getD (p + (2 ^ (k + 1) - 1) + j) [] =
            (layoutH k (L.drop (2 ^ k))).getD j [] := by
        intro j hj
        have hj' : (2 ^ (k + 1) - 1) + j < (layoutH (k + 1) L).length := by
          rw [layoutH_length]
          rw [hlay2] at hj
          have : 2 ^ (k + 1 + 1) = 2 * 2 ^ (k + 1) := by ring
          have : 1 ≤ 2 ^ (k + 1) := Nat.one_le_two_pow
          omega
        have := hcont ((2 ^ (k + 1) - 1) + j) hj'
        rw [show p + ((2 ^ (k + 1) - 1) + j) = p + (2 ^ (k + 1) - 1) + j by omega] at this
        rw [this]
        show (layoutH (k + 1) L).getD ((2 ^ (k + 1) - 1) + j) [] = _
        simp only [layoutH]
        rw [List.append_assoc, getD_append_right (by rw [hlay1]; omega), hlay1]
        rw [show 2 ^ (k + 1) - 1 + j - (2 ^ (k + 1) - 1) = j by omega]
        rw [getD_append_left (by rw [hlay2] at hj ⊢; omega)]
      rw [show 2 ^ (k + 1) + extra = 2 ^ k + (2 ^ k + extra) by
        have : 2 ^ (k + 1) = 2 * 2 ^ k := by ring
        omega]
      rw [show m * 2 ^ (k + 1) = (2 * m) * 2 ^ k by ring]
      rw [iterLeaves_block k (L.take (2 ^ k)) h1 blob p (2 * m) (2 ^ k + extra) hc1]
      rw [ctz1_two_mul, Nat.add_zero]
      rw [show (2 * m + 1) * 2 ^ k = (2 * m + 1) * 2 ^ k from rfl]
      rw [iterLeaves_block k (L.drop (2 ^ k)) h2 blob (p + (2 ^ (k + 1) - 1)) (2 * m + 1)
        extra hc2]
      rw [ctz1_odd]
      rw [← List.append_assoc, List.take_append_drop]
      have e1 : 2 ^ (k + 1 + 1) = 2 * 2 ^ (k + 1) := by ring
      have e2 : 1 ≤ 2 ^ (k + 1) := Nat.one_le_two_pow
      rw [show p + (2 ^ (k + 1) - 1) + (2 ^ (k + 1) - 1) + (count_trailing_ones m + 1)
          = p + (2 ^ (k + 1 + 1) - 1) + count_trailing_ones m by omega]
      rw [show (2 * m + 1 + 1) * 2 ^ k = (m + 1) * 2 ^ (k + 1) by ring]

/-- The leaves of a freshly laid-out tree of height `h + 1` are exactly the
`2^h` entries it was built from. -/
theorem leaves_layout (h : Nat) (E : List Bytes) (hE : E.length = 2 ^ h) :
    Tree.leaves ⟨h + 1, layoutH h E⟩ = E := by
  show Tree.iterLeavesAux (layoutH h E) 0 0 (2 ^ (h + 1 - 1)) = E
  rw [show h + 1 - 1 = h by omega]
  have := iterLeaves_block h E hE (layoutH h E) 0 0 0
    (by intro j hj; rw [Nat.zero_add])
  rw [Nat.zero_mul, Nat.add_zero] at this
  rw [this]
  show E ++ [] = E
  rw [List.append_nil]

/-! ## `Tree.merge` in closed form -/

theorem two_pow_pred_add {h : Nat} (hh : 1 ≤ h) :
    2 ^ (h - 1) + 2 ^ (h - 1) = 2 ^ h := by
  have e1 : 2 ^ (h - 1 + 1) = 2 ^ (h - 1) * 2 := pow_succ 2 _
  have e2 : h - 1 + 1 = h := by omega
  rw [e2] at e1
  omega

theorem Tree.merge_eq (a b : Tree) (hab : a.height = b.height) (h1 : 1 ≤ a.height) :
    a.merge b = .ok ⟨a.height + 1, layoutH a.height (mergeSorted a.leaves b.leaves)⟩ := by
  unfold Tree.merge
  rw [if_neg (by omega : ¬ a.height ≠ b.height)]
  have hlen : (mergeSorted a.leaves b.leaves).length = 2 ^ a.height := by
    rw [(mergeSorted_perm _ _).length_eq, List.length_append,
      Tree.leaves_length, Tree.leaves_length]
    show 2 ^ (a.height - 1) + 2 ^ (b.height - 1) = _
    rw [← hab]
    exact two_pow_pred_add h1
  rw [mergeLoop_full a.height _ hlen]
  rfl

/-- Merging two height-0 `Tree` values (not constructible in Python, where
`Tree.__init__` would fail on them, but representable in the model) also
succeeds: each contributes `2^0 = 1` leaf. -/
theorem Tree.merge_eq_zero (a b : Tree) (ha : a.height = 0) (hb : b.height = 0) :
    a.merge b = .ok ⟨a.height + 1, layoutH 1 (mergeSorted a.leaves b.leaves)⟩ := by
  unfold Tree.merge
  rw [if_neg (by omega : ¬ a.height ≠ b.height)]
  have hlen : (mergeSorted a.leaves b.leaves).length = 2 ^ 1 := by
    rw [(mergeSorted_perm _ _).length_eq, List.length_append,
      Tree.leaves_length, Tree.leaves_length]
    show 2 ^ (a.height - 1) + 2 ^ (b.height - 1) = _
    rw [ha, hb]
    rfl
  rw [mergeLoop_full 1 _ hlen]
  rfl

theorem merge_ok_of_eq (a b : Tree) (hab : a.height = b.height) :
    ∃ out, a.merge b = .ok ⟨a.height + 1, out⟩ := by
  cases Nat.eq_zero_or_pos a.height with
  | inl h0 => exact ⟨_, Tree.merge_eq_zero a b h0 (hab ▸ h0)⟩
  | inr h1 => exact ⟨_, Tree.merge_eq a b hab h1⟩

/-- The root slot of a freshly laid-out tree is the fresh-build root. -/
theorem layout_tree_root (h : Nat) (E : List Bytes) :
    (Tree.mk (h + 1) E).root = E.getD (2 ^ (h + 1) - 2) [] := rfl

theorem layoutH_getLast : ∀ (k : Nat) (L : List Bytes),
    (layoutH k L).getLast? = some (buildRootH k L)
  | 0, L => rfl
  | k + 1, L => by
      simp only [layoutH]
      rw [List.getLast?_concat]

/-! ## Claim theorems for `main.py` merging -/

/-- C9.  `Tree.merge` fails with the height-mismatch error iff the two
heights differ; on equal heights it succeeds and returns a tree of height
`h + 1`.  (Python cannot construct a tree of height 0 — `__init__` would
seek to slot `-1` — but the model covers that case too, so no height
hypothesis is needed.) -/
theorem C9_merge_height_mismatch (a b : Tree) :
    (a.merge b = .error .heightMismatch ↔ a.height ≠ b.height) ∧
    (a.height = b.height → ∃ t, a.merge b = .ok t ∧ t.height = a.height + 1) := by
  constructor
  · constructor
    · intro herr
      intro hab
      obtain ⟨out, hok⟩ := merge_ok_of_eq a b hab
      rw [hok] at herr
      cases herr
    · intro hab
      unfold Tree.merge
      rw [if_pos hab]
  · intro hab
    obtain ⟨out, hok⟩ := merge_ok_of_eq a b hab
    exact ⟨_, hok, rfl⟩

/-- Witness for C9: merging two concrete singleton trees succeeds with
height 2, and a height-1/height-2 pair fails with the mismatch error. -/
theorem C9_merge_height_mismatch_witness :
    (∃ t, Tree.merge ⟨1, [List.replicate 32 65]⟩ ⟨1, [List.replicate 32 66]⟩ = .ok t ∧
       t.height = 2) ∧
    Tree.merge ⟨1, [List.replicate 32 65]⟩ ⟨2, []⟩ = .error .heightMismatch := by
  constructor
  · exact (C9_merge_height_mismatch ⟨1, [List.replicate 32 65]⟩
      ⟨1, [List.replicate 32 66]⟩).2 rfl
  · exact (C9_merge_height_mismatch ⟨1, [List.replicate 32 65]⟩ ⟨2, []⟩).1.2 (by decide)

/-- C7.  For a merge of two equal-height trees (height `h ≥ 1`), the
streaming loop ends with exactly one stack element (so the final assertion
holds); that element is the root of the new tree and the last slot written,
and the output blob has exactly `2^(h+1) - 1` 32-byte slots. -/
theorem C7_merge_stack_assertion (a b : Tree) (hab : a.height = b.height)
    (h1 : 1 ≤ a.height) :
    ∃ r out,
      mergeLoop (mergeSorted a.leaves b.leaves) [] [] 0 = .ok ([r], out) ∧
      a.merge b = .ok ⟨a.height + 1, out⟩ ∧
      (Tree.mk (a.height + 1) out).root = r ∧
      out.getLast? = some r ∧
      out.length = 2 ^ (a.height + 1) - 1 := by
  have hlen : (mergeSorted a.leaves b.leaves).length = 2 ^ a.height := by
    rw [(mergeSorted_perm _ _).length_eq, List.length_append,
      Tree.leaves_length, Tree.leaves_length]
    show 2 ^ (a.height - 1) + 2 ^ (b.height - 1) = _
    rw [← hab]
    exact two_pow_pred_add h1
  refine ⟨buildRootH a.height (mergeSorted a.leaves b.leaves),
    layoutH a.height (mergeSorted a.leaves b.leaves),
    mergeLoop_full a.height _ hlen,
    Tree.merge_eq a b hab h1, ?_, layoutH_getLast _ _, layoutH_length _ _⟩
  rw [layout_tree_root, layoutH_root]

/-- Witness for C7 at two concrete singleton trees. -/
theorem C7_merge_stack_assertion_witness :
    ∃ r out,
      mergeLoop (mergeSorted (Tree.leaves ⟨1, [List.replicate 32 65]⟩)
          (Tree.leaves ⟨1, [List.replicate 32 66]⟩)) [] [] 0 = .ok ([r], out) ∧
      Tree.merge ⟨1, [List.replicate 32 65]⟩ ⟨1, [List.replicate 32 66]⟩ =
        .ok ⟨2, out⟩ ∧
      (Tree.mk 2 out).root = r ∧
      out.getLast? = some r ∧
      out.length = 2 ^ 2 - 1 :=
  C7_merge_stack_assertion ⟨1, [List.replicate 32 65]⟩ ⟨1, [List.replicate 32 66]⟩
    rfl (by decide)

/-- C2.  Merging two equal-height trees with sorted leaves yields a tree of
height `h + 1` whose leaves in storage order are the sorted multiset union
of the inputs' leaves, and whose root is the fresh-build root over exactly
that leaf list. -/
theorem C2_merge_round_trip (a b : Tree) (hab : a.height = b.height)
    (h1 : 1 ≤ a.height) (hsa : sortedB a.leaves) (hsb : sortedB b.leaves) :
    ∃ t, a.merge b = .ok t ∧
      t.height = a.height + 1 ∧
      t.leaves = mergeSorted a.leaves b.leaves ∧
      sortedB t.leaves ∧
      t.leaves.Perm (a.leaves ++ b.leaves) ∧
      t.root = buildRootH a.height t.leaves := by
  have hlen : (mergeSorted a.leaves b.leaves).length = 2 ^ a.height := by
    rw [(mergeSorted_perm _ _).length_eq, List.length_append,
      Tree.leaves_length, Tree.leaves_length]
    show 2 ^ (a.height - 1) + 2 ^ (b.height - 1) = _
    rw [← hab]
    exact two_pow_pred_add h1
  have hleaves := leaves_layout a.height _ hlen
  refine ⟨⟨a.height + 1, layoutH a.height (mergeSorted a.leaves b.leaves)⟩,
    Tree.merge_eq a b hab h1, rfl, hleaves, ?_, ?_, ?_⟩
  · rw [hleaves]; exact mergeSorted_sorted hsa hsb
  · rw [hleaves]; exact mergeSorted_perm _ _
  · rw [hleaves, layout_tree_root, layoutH_root]

/-- Witness for C2 at two concrete singleton trees. -/
theorem C2_merge_round_trip_witness :
    ∃ t, Tree.merge ⟨1, [List.replicate 32 66]⟩ ⟨1, [List.replicate 32 65]⟩ = .ok t ∧
      t.height = 2 ∧
      t.leaves = mergeSorted (Tree.leaves ⟨1, [List.replicate 32 66]⟩)
        (Tree.leaves ⟨1, [List.replicate 32 65]⟩) ∧
      sortedB t.leaves ∧
      t.leaves.Perm (Tree.leaves ⟨1, [List.replicate 32 66]⟩ ++
        Tree.leaves ⟨1, [List.replicate 32 65]⟩) ∧
      t.root = buildRootH 1 t.leaves :=
  C2_merge_round_trip ⟨1, [List.replicate 32 66]⟩ ⟨1, [List.replicate 32 65]⟩
    rfl (by decide) (by decide) (by decide)

/-- C3 (amended).  A merge writes the blob `layoutH`, whose leaf slots hold
the raw 32-byte entries and whose every internal slot is the UNTAGGED
`sha256(left_child_slot + right_child_slot)` of its two children's slots —
`main.py` uses no `"NODE:"` domain tag (that tag belongs to
`exclusion_tlog.py`'s `hash_pair`). -/
theorem C3_internal_slots (a b : Tree) (hab : a.height = b.height)
    (h1 : 1 ≤ a.height) :
    (∃ t, a.merge b = .ok t ∧
       t.blob = layoutH a.height (mergeSorted a.leaves b.leaves) ∧
       t.leaves = mergeSorted a.leaves b.leaves) ∧
    (∀ (k : Nat) (L1 L2 : List Bytes), L1.length = 2 ^ k →
       layoutH (k + 1) (L1 ++ L2) =
         layoutH k L1 ++ layoutH k L2 ++
           [sha256 (buildRootH k L1 ++ buildRootH k L2)] ∧
       buildRootH (k + 1) (L1 ++ L2) = sha256 (buildRootH k L1 ++ buildRootH k L2)) := by
  constructor
  · have hlen : (mergeSorted a.leaves b.leaves).length = 2 ^ a.height := by
      rw [(mergeSorted_perm _ _).length_eq, List.length_append,
        Tree.leaves_length, Tree.leaves_length]
      show 2 ^ (a.height - 1) + 2 ^ (b.height - 1) = _
      rw [← hab]
      exact two_pow_pred_add h1
    exact ⟨_, Tree.merge_eq a b hab h1, rfl, leaves_layout a.height _ hlen⟩
  · intro k L1 L2 hL1
    have htake : (L1 ++ L2).take (2 ^ k) = L1 := by rw [← hL1]; exact List.take_left _ _
    have hdrop : (L1 ++ L2).drop (2 ^ k) = L2 := by rw [← hL1]; exact List.drop_left _ _
    constructor
    · show layoutH k ((L1 ++ L2).take (2 ^ k)) ++ layoutH k ((L1 ++ L2).drop (2 ^ k)) ++
        [buildRootH (k + 1) (L1 ++ L2)] = _
      rw [htake, hdrop]
      show _ ++ _ ++ [hashNodePy (buildRootH k ((L1 ++ L2).take (2 ^ k)))
        (buildRootH k ((L1 ++ L2).drop (2 ^ k)))] = _
      rw [htake, hdrop]
      rfl
    · show hashNodePy (buildRootH k ((L1 ++ L2).take (2 ^ k)))
        (buildRootH k ((L1 ++ L2).drop (2 ^ k))) = _
      rw [htake, hdrop]
      rfl

/-! ## `find_left`: the binary search and its sibling path -/

/-- The leaf `find_left` returns on a sorted leaf list: the greatest leaf
`≤ needle`, clamped to the leftmost leaf when every leaf is `> needle`
(so the matching leaf when the needle is present). -/
def findLeftSpec (needle : Bytes) (L : List Bytes) : Bytes :=
  match (L.filter (fun x => !bytesLt needle x)).getLast? with
  | some v => v
  | none => L.headD []

/-- The (top-down) sibling path `_find_inner` accumulates over a perfect
subtree of `2^k` sorted leaves. -/
def findPath : Nat → List Bytes → Bytes → List (Nat × Bytes)
  | 0, _, _ => []
  | k + 1, L, needle =>
      if bytesLt needle ((L.drop (2 ^ k)).headD []) then
        (0, buildRootH k (L.drop (2 ^ k))) :: findPath k (L.take (2 ^ k)) needle
      else
        (1, buildRootH k (L.take (2 ^ k))) :: findPath k (L.drop (2 ^ k)) needle

/-- One verification step of the driver in `main.py`'s `__main__` block:
bit 1 means the sibling sits on the left of the accumulator. -/
def foldStep (acc : Bytes) (p : Nat × Bytes) : Bytes :=
  if p.1 = 1 then sha256 (p.2 ++ acc) else sha256 (acc ++ p.2)

/-- Folding the returned proof in REVERSED order (`proof[::-1]`), as the
driver in `main.py` does. -/
def foldProofRev (leaf : Bytes) (proof : List (Nat × Bytes)) : Bytes :=
  proof.reverse.foldl foldStep leaf

/-- Folding the returned proof in its own (top-down) order with the
untagged node hash. -/
def foldProofFwd (leaf : Bytes) (proof : List (Nat × Bytes)) : Bytes :=
  proof.foldl foldStep leaf

/-- Folding the returned proof in its own order with the spec's tagged
`H_node` (`hash_pair`). -/
def foldProofTagged (leaf : Bytes) (proof : List (Nat × Bytes)) : Bytes :=
  proof.foldl
    (fun acc p => if p.1 = 1 then hash_pair p.2 acc else hash_pair acc p.2) leaf

theorem findPath_length : ∀ (k : Nat) (L : List Bytes) (needle : Bytes),
    (findPath k L needle).length = k
  | 0, _, _ => rfl
  | k + 1, L, needle => by
      simp only [findPath]
      split <;> simp [findPath_length k]

/-- When every leaf of the right part exceeds the needle, the search value
comes from the (nonempty) left part. -/
theorem findLeftSpec_append_left {needle : Bytes} {L1 L2 : List Bytes}
    (h2 : ∀ x ∈ L2, bytesLt needle x = true) (h1 : L1 ≠ []) :
    findLeftSpec needle (L1 ++ L2) = findLeftSpec needle L1 := by
  unfold findLeftSpec
  rw [List.filter_append,
    show List.filter (fun x => !bytesLt needle x) L2 = [] from
      List.filter_eq_nil_iff.mpr (fun a ha => by simp [h2 a ha]),
    List.append_nil]
  cases hf : (L1.filter (fun x => !bytesLt needle x)).getLast? with
  | some v => rfl
  | none =>
      cases L1 with
      | nil => exact absurd rfl h1
      | cons a t => rfl

/-- When some leaf of the right part is `≤ needle`, the search value comes
from the right part. -/
theorem findLeftSpec_append_right {needle : Bytes} {L1 L2 : List Bytes}
    (h2 : L2.filter (fun x => !bytesLt needle x) ≠ []) :
    findLeftSpec needle (L1 ++ L2) = findLeftSpec needle L2 := by
  unfold findLeftSpec
  rw [List.filter_append, List.getLast?_append]
  cases hf : (L2.filter (fun x => !bytesLt needle x)).getLast? with
  | some v => rfl
  | none => exact absurd (List.getLast?_eq_none_iff.mp hf) h2

/-- Sorted right part, head `> needle`: every element is `> needle`. -/
theorem all_gt_of_head_gt {needle h2 : Bytes} {t2 : List Bytes}
    (hs : sortedB (h2 :: t2)) (hlt : bytesLt needle h2 = true) :
    ∀ x ∈ h2 :: t2, bytesLt needle x = true := by
  intro x hx
  rcases List.mem_cons.mp hx with rfl | hx
  · exact hlt
  · exact bytesLt_of_lt_of_le hlt ((List.pairwise_cons.mp hs).1 x hx)

theorem eq_singleton_of_length_one {L : List Bytes} (h : L.length = 1) :
    ∃ e, L = [e] := by
  cases L with
  | nil => simp at h
  | cons a t =>
      cases t with
      | nil => exact ⟨a, rfl⟩
      | cons b t' => simp [List.length_cons] at h

theorem sortedB_split (n : Nat) {L : List Bytes} (hs : sortedB L) :
    sortedB (L.take n) ∧ sortedB (L.drop n) := by
  unfold sortedB at *
  rw [← List.take_append_drop n L, List.pairwise_append] at hs
  exact ⟨hs.1, hs.2.1⟩

theorem findLeftSpec_singleton (needle e : Bytes) :
    findLeftSpec needle [e] = e := by
  unfold findLeftSpec
  by_cases h : bytesLt needle e <;> simp [List.filter, h]

theorem findPath_foldr : ∀ (k : Nat) (L : List Bytes) (needle : Bytes),
    L.length = 2 ^ k → sortedB L →
    List.foldr (fun p acc => foldStep acc p) (findLeftSpec needle L)
      (findPath k L needle) = buildRootH k L
  | 0, L, needle, hL, _ => by
      obtain ⟨e, rfl⟩ := eq_singleton_of_length_one hL
      show findLeftSpec needle [e] = ([e] : List Bytes).headD []
      rw [findLeftSpec_singleton]
      rfl
  | k + 1, L, needle, hL, hs => by
      have h1 : (L.take (2 ^ k)).length = 2 ^ k := by
        rw [List.length_take]; omega
      have h2 : (L.drop (2 ^ k)).length = 2 ^ k := by
        rw [List.length_drop, hL]; have : 2 ^ (k + 1) = 2 * 2 ^ k := by ring
        omega
      have hsplit : L.take (2 ^ k) ++ L.drop (2 ^ k) = L := List.take_append_drop _ _
      obtain ⟨hs1, hs2⟩ := sortedB_split (2 ^ k) hs
      obtain ⟨hd2, t2, hL2⟩ : ∃ a t, L.drop (2 ^ k) = a :: t := by
        cases hdrop : L.drop (2 ^ k) with
        | nil => rw [hdrop] at h2; simp at h2; have : 1 ≤ 2 ^ k := Nat.one_le_two_pow; omega
        | cons a t => exact ⟨a, t, rfl⟩
      simp only [findPath]
      split
      case isTrue hlt =>
          have hval : findLeftSpec needle L = findLeftSpec needle (L.take (2 ^ k)) := by
            conv_lhs => rw [← hsplit]
            refine findLeftSpec_append_left ?_ ?_
            · rw [hL2]
              rw [hL2] at hs2
              exact all_gt_of_head_gt hs2 (by rw [hL2] at hlt; exact hlt)
            · intro hnil; rw [hnil] at h1; simp at h1
              have : 1 ≤ 2 ^ k := Nat.one_le_two_pow; omega
          rw [List.foldr_cons, hval, findPath_foldr k (L.take (2 ^ k)) needle h1 hs1]
          show sha256 (buildRootH k (L.take (2 ^ k)) ++ buildRootH k (L.drop (2 ^ k))) = _
          rfl
      case isFalse hge =>
          have hval : findLeftSpec needle L = findLeftSpec needle (L.drop (2 ^ k)) := by
            conv_lhs => rw [← hsplit]
            refine findLeftSpec_append_right ?_
            rw [hL2]
            intro hnil
            have : hd2 ∈ List.filter (fun x => !bytesLt needle x) (hd2 :: t2) := by
              apply List.mem_filter.mpr
              refine ⟨List.mem_cons_self _ _, ?_⟩
              rw [hL2] at hge
              simp only [List.headD] at hge
              simp [Bool.of_not_eq_true hge]
            rw [hnil] at this
            cases this
          rw [List.foldr_cons, hval, findPath_foldr k (L.drop (2 ^ k)) needle h2 hs2]
          show sha256 (buildRootH k (L.take (2 ^ k)) ++ buildRootH k (L.drop (2 ^ k))) = _
          rfl

/-- The binary search of `_find_inner` over a perfect subtree whose layout
sits at position `s` of the blob returns the spec value and appends exactly
the `findPath` sibling list. -/
theorem findInner_layout : ∀ (k : Nat) (L : List Bytes), L.length = 2 ^ k → sortedB L →
    ∀ (t : Tree) (s : Nat) (pr : List (Nat × Bytes)) (needle : Bytes),
    (∀ j, j < (layoutH k L).length → t.blob.getD (s + j) [] = (layoutH k L).getD j []) →
    t._find_inner needle pr s (s + (2 ^ (k + 1) - 1)) =
      (findLeftSpec needle L, pr ++ findPath k L needle)
  | 0, L, hL, _, t, s, pr, needle, hcont => by
      obtain ⟨e, rfl⟩ := eq_singleton_of_length_one hL
      rw [Tree._find_inner]
      rw [dif_pos (by omega : s + (2 ^ (0 + 1) - 1) - s ≤ 1)]
      rw [show s + (s + (2 ^ (0 + 1) - 1) - s) / 2 = s by omega]
      have hgd : t.get_data_entry s = e := by
        have := hcont 0 (by simp [layoutH])
        rw [Nat.add_zero] at this
        exact this
      rw [hgd, findLeftSpec_singleton]
      show _ = (e, pr ++ [])
      rw [List.append_nil]
  | k + 1, L, hL, hs, t, s, pr, needle, hcont => by
      have e1 : 2 ^ (k + 1 + 1) = 2 * 2 ^ (k + 1) := by ring
      have e2 : 1 ≤ 2 ^ (k + 1) := Nat.one_le_two_pow
      have e3 : 2 ^ (k + 1) = 2 * 2 ^ k := by ring
      have e4 : 1 ≤ 2 ^ k := Nat.one_le_two_pow
      have h1 : (L.take (2 ^ k)).length = 2 ^ k := by rw [List.length_take]; omega
      have h2 : (L.drop (2 ^ k)).length = 2 ^ k := by rw [List.length_drop, hL]; omega
      have hsplit := List.take_append_drop (2 ^ k) L
      obtain ⟨hs1, hs2⟩ := sortedB_split (2 ^ k) hs
      have hlay1 : (layoutH k (L.take (2 ^ k))).length = 2 ^ (k + 1) - 1 :=
        layoutH_length _ _
      have hlay2 : (layoutH k (L.drop (2 ^ k))).length = 2 ^ (k + 1) - 1 :=
        layoutH_length _ _
      have hlayL : (layoutH (k + 1) L).length = 2 ^ (k + 1 + 1) - 1 := layoutH_length _ _
      obtain ⟨hd2, t2, hL2⟩ : ∃ a t2, L.drop (2 ^ k) = a :: t2 := by
        cases hdrop : L.drop (2 ^ k) with
        | nil => rw [hdrop] at h2; simp at h2; omega
        | cons a t2 => exact ⟨a, t2, rfl⟩
      -- the three probed slots
      have hmid : t.get_data_entry (s + (2 ^ (k + 1) - 1)) = (L.drop (2 ^ k)).headD [] := by
        show t.blob.getD (s + (2 ^ (k + 1) - 1)) [] = _
        have := hcont (2 ^ (k + 1) - 1) (by omega)
        rw [this]
        show (layoutH (k + 1) L).getD (2 ^ (k + 1) - 1) [] = _
        simp only [layoutH]
        rw [List.append_assoc, getD_append_right (by rw [hlay1]), hlay1]
        rw [show 2 ^ (k + 1) - 1 - (2 ^ (k + 1) - 1) = 0 by omega]
        rw [getD_append_left (by rw [hlay2]; omega)]
        exact layoutH_head _ _
      have hrootR : t.get_data_entry (s + (2 ^ (k + 1 + 1) - 1) - 2) =
          buildRootH k (L.drop (2 ^ k)) := by
        show t.blob.getD (s + (2 ^ (k + 1 + 1) - 1) - 2) [] = _
        have := hcont (2 ^ (k + 1 + 1) - 3) (by omega)
        rw [show s + (2 ^ (k + 1 + 1) - 3) = s + (2 ^ (k + 1 + 1) - 1) - 2 by omega] at this
        rw [this]
        show (layoutH (k + 1) L).getD (2 ^ (k + 1 + 1) - 3) [] = _
        simp only [layoutH]
        rw [List.append_assoc, getD_append_right (by rw [hlay1]; omega), hlay1]
        rw [show 2 ^ (k + 1 + 1) - 3 - (2 ^ (k + 1) - 1) = 2 ^ (k + 1) - 2 by omega]
        rw [getD_append_left (by rw [hlay2]; omega)]
        exact layoutH_root _ _
      have hrootL : t.get_data_entry (s + (2 ^ (k + 1) - 1) - 1) =
          buildRootH k (L.take (2 ^ k)) := by
        show t.blob.getD (s + (2 ^ (k + 1) - 1) - 1) [] = _
        have := hcont (2 ^ (k + 1) - 2) (by omega)
        rw [show s + (2 ^ (k + 1) - 2) = s + (2 ^ (k + 1) - 1) - 1 by omega] at this
        rw [this]
        show (layoutH (k + 1) L).getD (2 ^ (k + 1) - 2) [] = _
        simp only [layoutH]
        rw [List.append_assoc, getD_append_left (by rw [hlay1]; omega)]
        exact layoutH_root _ _
      -- containments for the two halves
      have hc1 : ∀ j, j < (layoutH k (L.take (2 ^ k))).length →
          t.blob.getD (s + j) [] = (layoutH k (L.take (2 ^ k))).getD j [] := by
        intro j hj
        rw [hlay1] at hj
        rw [hcont j (by omega)]
        show (layoutH (k + 1) L).getD j [] = _
        simp only [layoutH]
        rw [List.append_assoc, getD_append_left (by rw [hlay1]; omega)]
      have hc2 : ∀ j, j < (layoutH k (L.drop (2 ^ k))).length →
          t.blob.getD (s + (2 ^ (k + 1) - 1) + j) [] =
            (layoutH k (L.drop (2 ^ k))).getD j [] := by
        intro j hj
        rw [hlay2] at hj
        have := hcont ((2 ^ (k + 1) - 1) + j) (by omega)
        rw [show s + ((2 ^ (k + 1) - 1) + j) = s + (2 ^ (k + 1) - 1) + j by omega] at this
        rw [this]
        show (layoutH (k + 1) L).getD ((2 ^ (k + 1) - 1) + j) [] = _
        simp only [layoutH]
        rw [List.append_assoc, getD_append_right (by rw [hlay1]; omega), hlay1]
        rw [show 2 ^ (k + 1) - 1 + j - (2 ^ (k + 1) - 1) = j by omega]
        rw [getD_append_left (by rw [hlay2]; omega)]
      -- unfold one step of the search
      rw [Tree._find_inner]
      rw [dif_neg (by omega : ¬ (s + (2 ^ (k + 1 + 1) - 1) - s ≤ 1))]
      rw [show s + (s + (2 ^ (k + 1 + 1) - 1) - s) / 2 = s + (2 ^ (k + 1) - 1) by omega]
      rw [hmid]
      split
      case isTrue hlt =>
          rw [hrootR]
          rw [findInner_layout k (L.take (2 ^ k)) h1 hs1 t s
            (pr ++ [(0, buildRootH k (L.drop (2 ^ k)))]) needle hc1]
          have hval : findLeftSpec needle L = findLeftSpec needle (L.take (2 ^ k)) := by
            conv_lhs => rw [← hsplit]
            refine findLeftSpec_append_left ?_ ?_
            · rw [hL2]
              rw [hL2] at hs2
              exact all_gt_of_head_gt hs2 (by rw [hL2] at hlt; exact hlt)
            · intro hnil; rw [hnil] at h1; simp at h1; omega
          rw [hval]
          simp only [findPath]
          rw [if_pos hlt, List.append_assoc]
          rfl
      case isFalse hge =>
          rw [hrootL]
          rw [show s + (2 ^ (k + 1 + 1) - 1) - 1 = (s + (2 ^ (k + 1) - 1)) + (2 ^ (k + 1) - 1)
            by omega]
          rw [findInner_layout k (L.drop (2 ^ k)) h2 hs2 t (s + (2 ^ (k + 1) - 1))
            (pr ++ [(1, buildRootH k (L.take (2 ^ k)))]) needle hc2]
          have hval : findLeftSpec needle L = findLeftSpec needle (L.drop (2 ^ k)) := by
            conv_lhs => rw [← hsplit]
            refine findLeftSpec_append_right ?_
            rw [hL2]
            intro hnil
            have hmem : hd2 ∈ List.filter (fun x => !bytesLt needle x) (hd2 :: t2) := by
              apply List.mem_filter.mpr
              refine ⟨List.mem_cons_self _ _, ?_⟩
              rw [hL2] at hge
              simp only [List.headD] at hge
              simp [Bool.of_not_eq_true hge]
            rw [hnil] at hmem
            cases hmem
          rw [hval]
          simp only [findPath]
          rw [if_neg hge, List.append_assoc]
          rfl

/-- C6 (amended).  For a tree of height `h ≥ 1` over sorted leaves in layout
form, `find_left` returns the matching leaf when the needle is present and
otherwise the greatest leaf strictly below the needle (clamped to the
leftmost leaf), plus a sibling path of exactly `h − 1` pairs in TOP-DOWN
order; folding the REVERSED path from the returned leaf with the untagged
`sha256(l + r)` node hash reconstructs the root.  (The claim's bottom-up
order and tagged `H_node` both fail; see the counterexample.) -/
theorem C6_find_left (t : Tree) (L : List Bytes) (needle : Bytes)
    (hh : 1 ≤ t.height) (hL : L.length = 2 ^ (t.height - 1)) (hs : sortedB L)
    (hblob : t.blob = layoutH (t.height - 1) L) :
    t.find_left needle =
      (findLeftSpec needle L, findPath (t.height - 1) L needle) ∧
    (findPath (t.height - 1) L needle).length = t.height - 1 ∧
    foldProofRev (findLeftSpec needle L) (findPath (t.height - 1) L needle) = t.root := by
  refine ⟨?_, findPath_length _ _ _, ?_⟩
  · show t._find_inner needle [] 0 (2 ^ t.height - 1) = _
    have hfi := findInner_layout (t.height - 1) L hL hs t 0 [] needle
      (by intro j hj; rw [hblob, Nat.zero_add])
    rw [show t.height - 1 + 1 = t.height by omega, Nat.zero_add] at hfi
    rw [show 2 ^ t.height - 1 = 0 + (2 ^ t.height - 1) by omega] at hfi ⊢
    rw [hfi, List.nil_append]
  · unfold foldProofRev
    rw [List.foldl_reverse]
    rw [findPath_foldr (t.height - 1) L needle hL hs]
    show _ = t.blob.getD (2 ^ t.height - 2) []
    rw [hblob]
    have hroot := layoutH_root (t.height - 1) L
    rw [show t.height - 1 + 1 = t.height by omega] at hroot
    rw [hroot]

/-- Concrete 32-byte entries for witnesses and counterexamples. -/
def entryA : Bytes := List.replicate 32 65

/-- The entry `"B" * 32`. -/
def entryB : Bytes := List.replicate 32 66

/-- The entry `"C" * 32`. -/
def entryC : Bytes := List.replicate 32 67

/-- The entry `"D" * 32`. -/
def entryD : Bytes := List.replicate 32 68

/-- Witness for C6 on the concrete two-leaf tree over `"A"*32, "B"*32`. -/
theorem C6_find_left_witness :
    Tree.find_left ⟨2, layoutH 1 [entryA, entryB]⟩ entryB =
      (findLeftSpec entryB [entryA, entryB], findPath 1 [entryA, entryB] entryB) ∧
    (findPath 1 [entryA, entryB] entryB).length = 1 ∧
    foldProofRev (findLeftSpec entryB [entryA, entryB])
      (findPath 1 [entryA, entryB] entryB) = Tree.root ⟨2, layoutH 1 [entryA, entryB]⟩ :=
  C6_find_left ⟨2, layoutH 1 [entryA, entryB]⟩ [entryA, entryB] entryB
    (by decide) (by decide) (by decide) rfl

/-- Unwrap a successful merge (the fallback is never reached below). -/
def okTree (x : Except MergeError Tree) : Tree :=
  match x with
  | .ok t => t
  | .error _ => ⟨0, []⟩

/-- A height-3 tree built by merging the four singleton trees of
`"A"*32 … "D"*32`, as the code would. -/
def c6tree : Tree :=
  okTree (Tree.merge (okTree (Tree.merge ⟨1, [entryA]⟩ ⟨1, [entryB]⟩))
    (okTree (Tree.merge ⟨1, [entryC]⟩ ⟨1, [entryD]⟩)))

/-- Counterexample to C6 as stated: on the height-3 tree over
`"A"*32 … "D"*32` with needle `"B"*32`, the returned path has length 2, but
folding it in the returned order — with the tagged `H_node` as the claim
reads, or even untagged — does NOT reconstruct the root; only the REVERSED
(bottom-up) untagged fold does, so the returned order is top-down, not
bottom-up, and the node hash is untagged. -/
theorem C6_counterexample :
    Tree.find_left c6tree entryB =
      (findLeftSpec entryB [entryA, entryB, entryC, entryD],
       findPath 2 [entryA, entryB, entryC, entryD] entryB) ∧
    findLeftSpec entryB [entryA, entryB, entryC, entryD] = entryB ∧
    (findPath 2 [entryA, entryB, entryC, entryD] entryB).length = 2 ∧
    foldProofTagged (findLeftSpec entryB [entryA, entryB, entryC, entryD])
      (findPath 2 [entryA, entryB, entryC, entryD] entryB) ≠ c6tree.root ∧
    foldProofFwd (findLeftSpec entryB [entryA, entryB, entryC, entryD])
      (findPath 2 [entryA, entryB, entryC, entryD] entryB) ≠ c6tree.root ∧
    foldProofRev (findLeftSpec entryB [entryA, entryB, entryC, entryD])
      (findPath 2 [entryA, entryB, entryC, entryD] entryB) = c6tree.root := by
  have hblob : c6tree.blob = layoutH 2 [entryA, entryB, entryC, entryD] := by decide
  refine ⟨?_, by decide, by decide, by decide, by decide, by decide⟩
  show c6tree._find_inner entryB [] 0 (2 ^ c6tree.height - 1) = _
  have hfi := findInner_layout 2 [entryA, entryB, entryC, entryD] (by decide) (by decide)
    c6tree 0 [] entryB (by intro j hj; rw [hblob, Nat.zero_add])
  rw [Nat.zero_add] at hfi
  rw [show 2 ^ c6tree.height - 1 = 2 ^ (2 + 1) - 1 by decide]
  rw [hfi, List.nil_append]

/-! ## Forest carry insertion (`Forest.add`) -/

theorem forestCardinality_eq : ∀ (l : List Tree) (a : Nat),
    l.foldl (fun acc t => acc + t.cardinality) a = a + (l.map Tree.cardinality).sum
  | [], a => by simp
  | t :: rest, a => by
      simp only [List.foldl_cons, List.map_cons, List.sum_cons]
      rw [forestCardinality_eq rest (a + t.cardinality)]
      omega

/-- The canonicity loop accepts any strictly-decreasing chain (with the
running bound respected). -/
theorem checkCanonical_of_chain : ∀ (l : List Tree) (p : Option Nat),
    List.Chain' (fun a b : Tree => b.height < a.height) l →
    (match p, l with
     | some pv, t :: _ => t.height < pv
     | _, _ => True) →
    checkCanonical p l = true
  | [], none, _, _ => rfl
  | [], some _, _, _ => rfl
  | t :: rest, none, hc, _ => by
      show checkCanonical (some t.height) rest = true
      refine checkCanonical_of_chain rest (some t.height) (List.chain'_cons'.mp hc).2 ?_
      cases rest with
      | nil => trivial
      | cons r rest' => exact (List.chain'_cons'.mp hc).1 r rfl
  | t :: rest, some pv, hc, hp => by
      show (if t.height ≥ pv then false else checkCanonical (some t.height) rest) = true
      rw [if_neg (by omega : ¬ t.height ≥ pv)]
      refine checkCanonical_of_chain rest (some t.height) (List.chain'_cons'.mp hc).2 ?_
      cases rest with
      | nil => trivial
      | cons r rest' => exact (List.chain'_cons'.mp hc).1 r rfl

theorem checkCanonical_of_pairwise (l : List Tree)
    (h : List.Pairwise (fun a b : Tree => b.height < a.height) l) :
    checkCanonical none l = true :=
  checkCanonical_of_chain l none h.chain' trivial

/-- The carry loop of `Forest.add`: on a strictly increasing (reversed)
tree list whose members dominate the accumulator's height, it succeeds and
returns a strictly increasing `acc' :: rest` with the total cardinality
preserved. -/
theorem addLoop_spec : ∀ (rev : List Tree) (acc : Tree),
    (∀ u ∈ rev, 1 ≤ u.height ∧ acc.height ≤ u.height) →
    List.Pairwise (fun a b : Tree => a.height < b.height) rev →
    1 ≤ acc.height →
    ∃ rest acc', addLoop rev acc = .ok (rest, acc') ∧
      List.Pairwise (fun a b : Tree => a.height < b.height) (acc' :: rest) ∧
      1 ≤ acc'.height ∧
      acc'.cardinality + (rest.map Tree.cardinality).sum =
        acc.cardinality + (rev.map Tree.cardinality).sum
  | [], acc, _, _, hacc => by
      refine ⟨[], acc, rfl, ?_, hacc, by simp⟩
      simp
  | t :: rest0, acc, hdom, hpw, hacc => by
      simp only [addLoop]
      split
      case isTrue heq =>
          have hmerge := Tree.merge_eq acc t (by omega) hacc
          rw [hmerge]
          show ∃ rest acc', addLoop rest0 ⟨acc.height + 1, _⟩ = .ok (rest, acc') ∧ _
          have hpw0 := List.pairwise_cons.mp hpw
          obtain ⟨rest, acc', hloop, hpw', hacc', hsum⟩ :=
            addLoop_spec rest0 ⟨acc.height + 1, layoutH acc.height
              (mergeSorted acc.leaves t.leaves)⟩
              (fun u hu => ⟨(hdom u (List.mem_cons_of_mem t hu)).1, by
                have := hpw0.1 u hu
                show acc.height + 1 ≤ u.height
                omega⟩)
              hpw0.2 (by show 1 ≤ acc.height + 1; omega)
          refine ⟨rest, acc', hloop, hpw', hacc', ?_⟩
          have hcardm : Tree.cardinality ⟨acc.height + 1, layoutH acc.height
              (mergeSorted acc.leaves t.leaves)⟩ =
              acc.cardinality + t.cardinality := by
            show 2 ^ (acc.height + 1 - 1) = 2 ^ (acc.height - 1) + 2 ^ (t.height - 1)
            rw [← heq, show t.height + 1 - 1 = t.height by omega]
            exact (two_pow_pred_add (by omega : 1 ≤ t.height)).symm
          rw [hsum]
          simp only [List.map_cons, List.sum_cons]
          omega
      case isFalse hne =>
          refine ⟨t :: rest0, acc, rfl, ?_, hacc, by simp⟩
          rw [List.pairwise_cons]
          refine ⟨?_, hpw⟩
          intro u hu
          rcases List.mem_cons.mp hu with rfl | hu
          · have := (hdom u (List.mem_cons_self _ _)).2
            omega
          · have h1 := (hdom t (List.mem_cons_self _ _)).2
            have h2 := (List.pairwise_cons.mp hpw).1 u hu
            omega

/-- `Forest.add` on a canonical forest of positive heights: succeeds,
stays canonical, and adds exactly one to the cardinality. -/
theorem forestAdd_spec (f : List Tree) (entry : Bytes)
    (hf1 : ∀ u ∈ f, 1 ≤ u.height)
    (hfp : List.Pairwise (fun a b : Tree => b.height < a.height) f)
    (hlen : entry.length = 32) :
    ∃ f', forestAdd f entry = some f' ∧
      (∀ u ∈ f', 1 ≤ u.height) ∧
      List.Pairwise (fun a b : Tree => b.height < a.height) f' ∧
      forestCardinality f' = forestCardinality f + 1 := by
  unfold forestAdd
  rw [if_neg (by omega : ¬ entry.length ≠ 32)]
  obtain ⟨rest, acc', hloop, hpw', hacc', hsum⟩ :=
    addLoop_spec f.reverse ⟨1, [entry]⟩
      (fun u hu => ⟨hf1 u (List.mem_reverse.mp hu), hf1 u (List.mem_reverse.mp hu)⟩)
      (List.pairwise_reverse.mpr hfp) (Nat.le_refl 1)
  rw [hloop]
  have hpw'' : List.Pairwise (fun a b : Tree => b.height < a.height)
      (rest.reverse ++ [acc']) := by
    rw [show rest.reverse ++ [acc'] = (acc' :: rest).reverse from (List.reverse_cons _ _).symm]
    exact List.pairwise_reverse.mpr hpw'
  refine ⟨rest.reverse ++ [acc'], ?_, ?_, hpw'', ?_⟩
  · show (if checkCanonical none (rest.reverse ++ [acc']) = true then
        some (rest.reverse ++ [acc']) else none) = some (rest.reverse ++ [acc'])
    rw [if_pos (checkCanonical_of_pairwise _ hpw'')]
  · intro u hu
    rcases List.mem_append.mp hu with hu | hu
    · rcases List.pairwise_cons.mp hpw' with ⟨hlt, hrest⟩
      have := hlt u (List.mem_reverse.mp hu)
      omega
    · rcases List.mem_singleton.mp hu with rfl
      exact hacc'
  · show (rest.reverse ++ [acc']).foldl _ 0 = f.foldl _ 0 + 1
    rw [forestCardinality_eq, forestCardinality_eq]
    simp only [List.map_append, List.map_reverse, List.sum_append, List.sum_reverse,
      List.map_cons, List.map_nil, List.sum_cons, List.sum_nil, Nat.zero_add]
    have hrevsum : ((f.reverse).map Tree.cardinality).sum = (f.map Tree.cardinality).sum := by
      rw [List.map_reverse, List.sum_reverse]
    rw [hrevsum] at hsum
    have hone : Tree.cardinality ⟨1, [entry]⟩ = 1 := rfl
    rw [hone] at hsum
    omega

/-- C8.  Starting from the empty forest, any sequence of `n` 32-byte adds
succeeds; the result has cardinality `n`, its heights are strictly
decreasing, and the `Forest` constructor's canonicity check passes on it. -/
theorem C8_add_cardinality_canonical (entries : List Bytes)
    (hlen : ∀ e ∈ entries, e.length = 32) :
    ∃ f, addAll [] entries = some f ∧
      forestCardinality f = entries.length ∧
      List.Pairwise (fun a b : Tree => b.height < a.height) f ∧
      forestInit f = some f := by
  suffices h : ∀ (es : List Bytes) (f0 : List Tree), (∀ e ∈ es, e.length = 32) →
      (∀ u ∈ f0, 1 ≤ u.height) →
      List.Pairwise (fun a b : Tree => b.height < a.height) f0 →
      ∃ f, addAll f0 es = some f ∧
        forestCardinality f = forestCardinality f0 + es.length ∧
        (∀ u ∈ f, 1 ≤ u.height) ∧
        List.Pairwise (fun a b : Tree => b.height < a.height) f by
    obtain ⟨f, h1, h2, _, h4⟩ := h entries [] hlen (by simp) (by simp)
    refine ⟨f, h1, by
      rw [h2]
      show forestCardinality [] + entries.length = entries.length
      rw [show forestCardinality [] = 0 from rfl, Nat.zero_add], h4, ?_⟩
    unfold forestInit
    rw [if_pos (checkCanonical_of_pairwise _ h4)]
  intro es
  induction es with
  | nil =>
      intro f0 _ hf1 hfp
      exact ⟨f0, rfl, by simp, hf1, hfp⟩
  | cons e es ih =>
      intro f0 hes hf1 hfp
      obtain ⟨f1, hadd, hf1', hfp', hcard⟩ :=
        forestAdd_spec f0 e hf1 hfp (hes e (List.mem_cons_self _ _))
      obtain ⟨f, haddAll, hcard', h1', hp'⟩ :=
        ih f1 (fun x hx => hes x (List.mem_cons_of_mem _ hx)) hf1' hfp'
      refine ⟨f, ?_, ?_, h1', hp'⟩
      · show (match forestAdd f0 e with
          | none => none
          | some f => addAll f es) = some f
        rw [hadd]
        exact haddAll
      · rw [hcard', hcard]
        simp only [List.length_cons]
        omega

/-- Witness for C8 on three concrete entries. -/
theorem C8_add_cardinality_canonical_witness :
    ∃ f, addAll [] [entryA, entryB, entryC] = some f ∧
      forestCardinality f = 3 ∧
      List.Pairwise (fun a b : Tree => b.height < a.height) f ∧
      forestInit f = some f :=
  C8_add_cardinality_canonical [entryA, entryB, entryC] (by decide)

/-! ## Forest roots (C1) -/

theorem foldl_append_eq_join : ∀ (l : List Bytes) (a : Bytes),
    l.foldl (· ++ ·) a = a ++ l.flatten
  | [], a => by simp
  | x :: rest, a => by
      simp only [List.foldl_cons, List.flatten_cons]
      rw [foldl_append_eq_join rest (a ++ x), List.append_assoc]

/-- C1 (amended).  `main.py`'s forest root is the UNTAGGED SHA-256 of the
concatenated tree roots (the empty forest hashes the empty string, not
`"EMPTY:"`).  `exclusion_tlog.py`'s `hash_roots` does implement
`H("FOREST:" ∥ …)` with sentinel `H("EMPTY:")`, but `get_root_hash` applies
it only when the forest has at least two trees: it returns `None` for an
empty forest and the bare tree root for a single tree. -/
theorem C1_forest_root_characterisation :
    (∀ trees : List Tree, forestRoot trees = sha256 ((trees.map Tree.root).flatten)) ∧
    forestRoot [] = sha256 [] ∧
    hash_roots [] = sha256 [69, 77, 80, 84, 89, 58] ∧
    (∀ rs : List Bytes, rs ≠ [] →
      hash_roots rs = sha256 ([70, 79, 82, 69, 83, 84, 58] ++ rs.flatten)) ∧
    getRootHash [] = none ∧
    (∀ t : MerkleTree, getRootHash [t] = some t.root_hash) ∧
    (∀ (t1 t2 : MerkleTree) (ts : List MerkleTree),
      getRootHash (t1 :: t2 :: ts) =
        some (hash_roots ((t1 :: t2 :: ts).map MerkleTree.root_hash))) := by
  refine ⟨?_, rfl, rfl, ?_, rfl, fun t => rfl, fun t1 t2 ts => rfl⟩
  · intro trees
    show sha256 (trees.foldl (fun acc t => acc ++ t.root) []) = _
    have : ∀ (l : List Tree) (a : Bytes),
        l.foldl (fun acc t => acc ++ t.root) a = (l.map Tree.root).foldl (· ++ ·) a := by
      intro l
      induction l with
      | nil => intro a; rfl
      | cons x rest ih => intro a; simp only [List.foldl_cons, List.map_cons]; exact ih _
    rw [this, foldl_append_eq_join, List.nil_append]
  · intro rs hrs
    cases rs with
    | nil => exact absurd rfl hrs
    | cons r rest =>
        show sha256 (_ ++ (r :: rest).foldl (· ++ ·) []) = _
        rw [foldl_append_eq_join, List.nil_append]

/-- Witness for C1 (amended) at concrete inputs. -/
theorem C1_forest_root_characterisation_witness :
    forestRoot [⟨1, [entryA]⟩] = sha256 ((([⟨1, [entryA]⟩] : List Tree).map Tree.root).flatten) ∧
    hash_roots [entryA] = sha256 ([70, 79, 82, 69, 83, 84, 58] ++ [entryA].flatten) ∧
    getRootHash [mkTree [5]] = some (mkTree [5]).root_hash :=
  ⟨C1_forest_root_characterisation.1 [⟨1, [entryA]⟩],
   C1_forest_root_characterisation.2.2.2.1 [entryA] (by simp),
   C1_forest_root_characterisation.2.2.2.2.2.1 (mkTree [5])⟩

/-- Counterexample to C1 as stated: the empty `main.py` forest's root is
`sha256(b"")`, not the `H("EMPTY:")` sentinel; the empty `ExclusionTLog`
root is `None`; a single-tree `ExclusionTLog` root is the bare tree root,
which differs from `H("FOREST:" ∥ root)`; and a nonempty `main.py` forest
root carries no `"FOREST:"` tag. -/
theorem C1_counterexample :
    forestRoot [] ≠ sha256 [69, 77, 80, 84, 89, 58] ∧
    getRootHash [] = none ∧
    getRootHash [mkTree [5]] = some (mkTree [5]).root_hash ∧
    (mkTree [5]).root_hash ≠ hash_roots [(mkTree [5]).root_hash] ∧
    forestRoot [⟨1, [entryA]⟩] ≠
      sha256 ([70, 79, 82, 69, 83, 84, 58] ++ Tree.root ⟨1, [entryA]⟩) := by
  exact ⟨by decide, rfl, rfl, by decide, by decide⟩

/-! ## `exclusion_tlog.py`: tree structure lemmas -/

/-- The leaf nodes under a `MerkleNode`, left to right. -/
def leavesOf : MerkleNode → List MerkleNode
  | .leaf h v => [.leaf h v]
  | .node _ l r => leavesOf l ++ leavesOf r

/-- Every internal node's hash is `hash_pair` of its children's hashes. -/
def HashOk : MerkleNode → Prop
  | .leaf _ _ => True
  | .node h l r => h = hash_pair l.hash r.hash ∧ HashOk l ∧ HashOk r

theorem pairUp_length : ∀ (l : List MerkleNode),
    (pairUp l).length = (l.length + 1) / 2
  | [] => by simp [pairUp]
  | [_] => by simp [pairUp]
  | _ :: _ :: rest => by
      simp only [pairUp, List.length_cons, pairUp_length rest]
      omega

theorem pairUp_leaves : ∀ (l : List MerkleNode),
    ((pairUp l).map leavesOf).flatten = (l.map leavesOf).flatten
  | [] => rfl
  | [_] => rfl
  | a :: b :: rest => by
      simp only [pairUp, List.map_cons, List.flatten_cons, pairUp_leaves rest]
      show (leavesOf a ++ leavesOf b) ++ _ = _
      rw [List.append_assoc]

theorem pairUp_hashOk : ∀ (l : List MerkleNode), (∀ n ∈ l, HashOk n) →
    ∀ n ∈ pairUp l, HashOk n
  | [], _, n, hn => by cases hn
  | [x], h, n, hn => by
      rcases List.mem_singleton.mp hn with rfl
      exact h n (List.mem_singleton.mpr rfl)
  | a :: b :: rest, h, n, hn => by
      rcases List.mem_cons.mp hn with rfl | hn
      · exact ⟨rfl, h a (by simp), h b (by simp)⟩
      · exact pairUp_hashOk rest (fun m hm => h m (by simp [hm])) n hn

theorem pairUp_ne_nil : ∀ (l : List MerkleNode), l ≠ [] → pairUp l ≠ []
  | [], h => absurd rfl h
  | [x], _ => by simp [pairUp]
  | a :: b :: rest, _ => by simp [pairUp]

theorem mergeNodesF_leaves : ∀ (f : Nat) (nodes : List MerkleNode), nodes ≠ [] →
    nodes.length ≤ f →
    leavesOf (mergeNodesF f nodes) = (nodes.map leavesOf).flatten
  | _, [], h, _ => absurd rfl h
  | 0, [x], _, _ => by simp [mergeNodesF, leavesOf]
  | f + 1, [x], _, _ => by simp [mergeNodesF]
  | 0, _ :: _ :: _, _, hf => by simp at hf
  | f + 1, a :: b :: rest, _, hf => by
      show leavesOf (mergeNodesF f (pairUp (a :: b :: rest))) = _
      rw [mergeNodesF_leaves f (pairUp (a :: b :: rest))
        (pairUp_ne_nil _ (by simp)) (by
          rw [pairUp_length]
          simp only [List.length_cons] at hf ⊢
          omega)]
      exact pairUp_leaves _

theorem mergeNodesF_hashOk : ∀ (f : Nat) (nodes : List MerkleNode), nodes ≠ [] →
    nodes.length ≤ f → (∀ n ∈ nodes, HashOk n) →
    HashOk (mergeNodesF f nodes)
  | _, [], h, _, _ => absurd rfl h
  | 0, [x], _, _, h => h x (by simp)
  | f + 1, [x], _, _, h => h x (by simp)
  | 0, _ :: _ :: _, _, hf, _ => by simp at hf
  | f + 1, a :: b :: rest, _, hf, h => by
      show HashOk (mergeNodesF f (pairUp (a :: b :: rest)))
      refine mergeNodesF_hashOk f (pairUp (a :: b :: rest))
        (pairUp_ne_nil _ (by simp)) (by
          rw [pairUp_length]
          simp only [List.length_cons] at hf ⊢
          omega) (pairUp_hashOk _ h)

theorem subtree_size_eq_leaves : ∀ (n : MerkleNode),
    _subtree_size n = (leavesOf n).length
  | .leaf _ _ => rfl
  | .node _ l r => by
      simp only [_subtree_size, leavesOf, List.length_append,
        subtree_size_eq_leaves l, subtree_size_eq_leaves r]

/-- Collecting siblings from a well-hashed node at a valid leaf index
succeeds, and folding the collected (top-down) list bottom-up from the
leaf's hash rebuilds the node's hash. -/
theorem collect_fold : ∀ (node : MerkleNode), HashOk node →
    ∀ (idx cstart : Nat), idx < (leavesOf node).length →
    (_collect_siblings node (cstart + idx) cstart).2 = true ∧
    List.foldr
      (fun (p : Bytes × Bool) acc => if p.2 then hash_pair p.1 acc else hash_pair acc p.1)
      (((leavesOf node).getD idx (.leaf [] 0)).hash)
      (_collect_siblings node (cstart + idx) cstart).1 = node.hash
  | .leaf h v, _, idx, cstart, hidx => by
      have : idx = 0 := by simpa [leavesOf] using hidx
      subst this
      constructor
      · simp [_collect_siblings]
      · simp [_collect_siblings, leavesOf, MerkleNode.hash]
  | .node h l r, hok, idx, cstart, hidx => by
      obtain ⟨hh, hokl, hokr⟩ := hok
      simp only [leavesOf, List.length_append] at hidx
      by_cases hcase : idx < (leavesOf l).length
      · have hcond : cstart + idx < cstart + _subtree_size l := by
          rw [subtree_size_eq_leaves]; omega
        simp only [_collect_siblings, if_pos hcond]
        obtain ⟨hfound, hfold⟩ := collect_fold l hokl idx cstart hcase
        constructor
        · exact hfound
        · simp only [List.foldr_cons]
          rw [show (leavesOf (MerkleNode.node h l r)).getD idx (MerkleNode.leaf [] 0) =
              (leavesOf l).getD idx (MerkleNode.leaf [] 0) from by
            show (leavesOf l ++ leavesOf r).getD idx _ = _
            exact getD_append_left hcase]
          rw [hfold]
          show hash_pair l.hash r.hash = _
          rw [hh]
          rfl
      · have hcond : ¬ (cstart + idx < cstart + _subtree_size l) := by
          rw [subtree_size_eq_leaves]; omega
        simp only [_collect_siblings, if_neg hcond]
        have hidx' : idx - (leavesOf l).length < (leavesOf r).length := by omega
        obtain ⟨hfound, hfold⟩ :=
          collect_fold r hokr (idx - (leavesOf l).length) (cstart + _subtree_size l) hidx'
        rw [show cstart + _subtree_size l + (idx - (leavesOf l).length) = cstart + idx from by
          rw [subtree_size_eq_leaves]; omega] at hfound hfold
        constructor
        · exact hfound
        · simp only [List.foldr_cons]
          rw [show (leavesOf (MerkleNode.node h l r)).getD idx (MerkleNode.leaf [] 0) =
              (leavesOf r).getD (idx - (leavesOf l).length) (MerkleNode.leaf [] 0) from by
            show (leavesOf l ++ leavesOf r).getD idx _ = _
            exact getD_append_right (by omega)]
          rw [hfold]
          show hash_pair l.hash r.hash = _
          rw [hh]
          rfl

/-! ## Sorting and well-formed `MerkleTree`s -/

theorem insertSorted_perm (x : Nat) : ∀ (l : List Nat),
    (insertSorted x l).Perm (x :: l)
  | [] => List.Perm.refl _
  | y :: ys => by
      simp only [insertSorted]
      split
      · exact List.Perm.refl _
      · exact ((insertSorted_perm x ys).cons y).trans (List.Perm.swap x y ys)

theorem sortNat_perm : ∀ (l : List Nat), (sortNat l).Perm l
  | [] => List.Perm.refl _
  | x :: rest => by
      show (insertSorted x (sortNat rest)).Perm _
      exact (insertSorted_perm x (sortNat rest)).trans ((sortNat_perm rest).cons x)

theorem mem_sortNat {v : Nat} {l : List Nat} : v ∈ sortNat l ↔ v ∈ l :=
  (sortNat_perm l).mem_iff

theorem insertSorted_sorted (x : Nat) : ∀ {l : List Nat},
    l.Pairwise (· ≤ ·) → (insertSorted x l).Pairwise (· ≤ ·)
  | [], _ => by simp [insertSorted]
  | y :: ys, h => by
      simp only [insertSorted]
      obtain ⟨hy, hys⟩ := List.pairwise_cons.mp h
      split
      case isTrue hxy =>
          rw [List.pairwise_cons]
          refine ⟨?_, h⟩
          intro z hz
          rcases List.mem_cons.mp hz with rfl | hz
          · exact hxy
          · exact le_trans hxy (hy z hz)
      case isFalse hxy =>
          rw [List.pairwise_cons]
          refine ⟨?_, insertSorted_sorted x hys⟩
          intro z hz
          rcases List.mem_cons.mp ((insertSorted_perm x ys).mem_iff.mp hz) with rfl | hz
          · omega
          · exact hy z hz

theorem sortNat_sorted : ∀ (l : List Nat), (sortNat l).Pairwise (· ≤ ·)
  | [] => List.Pairwise.nil
  | x :: rest => insertSorted_sorted x (sortNat_sorted rest)

/-- A well-formed `MerkleTree`: internal hashes are `hash_pair` of the
children, and the leaves are exactly the (hashed) sorted values.  Every
tree the code constructs (`create_single`, `add_batch`, `merge_trees`) has
this shape. -/
def TreeWF (t : MerkleTree) : Prop :=
  HashOk t.root ∧ leavesOf t.root = t.sorted_values.map mkLeaf

theorem flatten_map_singleton : ∀ (l : List Nat),
    (l.map (fun v => [mkLeaf v])).flatten = l.map mkLeaf
  | [] => rfl
  | x :: rest => by
      simp only [List.map_cons, List.flatten_cons, flatten_map_singleton rest]
      rfl

theorem mkTree_wf (b : List Nat) (hb : b ≠ []) : TreeWF (mkTree b) := by
  have hsvne : sortNat b ≠ [] := by
    intro h
    have := (sortNat_perm b).length_eq
    rw [h] at this
    cases b with
    | nil => exact hb rfl
    | cons x t => simp at this
  have hlen : ((sortNat b).map mkLeaf).length = (sortNat b).length := List.length_map _ _
  have hne : (sortNat b).map mkLeaf ≠ [] := by
    intro h
    rw [h] at hlen
    cases hsv : sortNat b with
    | nil => exact hsvne hsv
    | cons x t => rw [hsv] at hlen; simp at hlen
  constructor
  · exact mergeNodesF_hashOk _ _ hne (le_refl _)
      (fun n hn => by
        obtain ⟨v, _, rfl⟩ := List.mem_map.mp hn
        trivial)
  · show leavesOf (mergeNodesF ((sortNat b).map mkLeaf).length ((sortNat b).map mkLeaf)) = _
    rw [mergeNodesF_leaves _ _ hne (le_refl _)]
    show (((sortNat b).map mkLeaf).map leavesOf).flatten = _
    rw [List.map_map]
    show ((sortNat b).map (fun v => [mkLeaf v])).flatten = _
    rw [flatten_map_singleton]
    rfl

theorem ftcGo_finds {v : Nat} : ∀ (ts : List MerkleTree) (i : Nat),
    (∃ t ∈ ts, t.sorted_values.contains v = true) →
    ∃ j t, ftcGo v i ts = some (j, t) ∧ t ∈ ts ∧ t.sorted_values.contains v = true
  | [], _, h => by simp at h
  | t :: ts, i, h => by
      simp only [ftcGo]
      by_cases hc : t.sorted_values.contains v = true
      · rw [if_pos hc]
        exact ⟨i, t, rfl, List.mem_cons_self _ _, hc⟩
      · rw [if_neg hc]
        obtain ⟨t', ht', hc'⟩ := h
        rcases List.mem_cons.mp ht' with rfl | ht'
        · exact absurd hc' hc
        · obtain ⟨j, t'', heq, hmem, hc''⟩ := ftcGo_finds ts (i + 1) ⟨t', ht', hc'⟩
          exact ⟨j, t'', heq, List.mem_cons_of_mem _ hmem, hc''⟩

theorem ftcGo_none {v : Nat} : ∀ (ts : List MerkleTree) (i : Nat),
    (∀ t ∈ ts, ¬ t.sorted_values.contains v = true) →
    ftcGo v i ts = none
  | [], _, _ => rfl
  | t :: ts, i, h => by
      simp only [ftcGo]
      rw [if_neg (h t (List.mem_cons_self _ _))]
      exact ftcGo_none ts (i + 1) (fun u hu => h u (List.mem_cons_of_mem _ hu))

/-- Successful, verifying inclusion proofs for any value present in a
well-formed forest.  The proof's `root_hash` is the root of the tree
containing the value — not the forest root. -/
theorem proveInclusion_some_verify (trees : List MerkleTree) (v : Nat)
    (hwf : ∀ t ∈ trees, TreeWF t)
    (hmem : ∃ t ∈ trees, v ∈ t.sorted_values) :
    ∃ p t, proveInclusion trees v = some p ∧ t ∈ trees ∧ v ∈ t.sorted_values ∧
      p.root_hash = t.root_hash ∧ p.verify = true := by
  obtain ⟨j, t, hftc, htmem, hcont⟩ := ftcGo_finds trees 0
    (by obtain ⟨t, ht, hv⟩ := hmem; exact ⟨t, ht, List.elem_iff.mpr hv⟩)
  obtain ⟨hok, hleaves⟩ := hwf t htmem
  have hvmem : v ∈ t.sorted_values := List.elem_iff.mp hcont
  have hidxlt : t.sorted_values.indexOf v < t.sorted_values.length :=
    List.indexOf_lt_length.mpr hvmem
  have hidx : t.sorted_values.indexOf v < (leavesOf t.root).length := by
    rw [hleaves, List.length_map]
    exact hidxlt
  have hcf := collect_fold t.root hok (t.sorted_values.indexOf v) 0 hidx
  rw [Nat.zero_add] at hcf
  refine ⟨InclusionProof.mk v (hash_value v)
    ((_collect_siblings t.root (t.sorted_values.indexOf v) 0).1.reverse)
    t.root_hash j t.root_hash, t, ?_, htmem, hvmem, rfl, ?_⟩
  · show (match findTreeContaining trees v with
      | none => none
      | some (tree_idx, tree) =>
          some (InclusionProof.mk v (hash_value v)
            ((_collect_siblings tree.root (tree.sorted_values.indexOf v) 0).1.reverse)
            tree.root_hash tree_idx tree.root_hash)) = _
    rw [show findTreeContaining trees v = some (j, t) from hftc]
  · show (List.foldl _ (hash_value v) (_collect_siblings t.root
      (t.sorted_values.indexOf v) 0).1.reverse == t.root_hash) = true
    rw [List.foldl_reverse]
    have hleafhash : ((leavesOf t.root).getD (t.sorted_values.indexOf v)
        (MerkleNode.leaf [] 0)).hash = hash_value v := by
      rw [hleaves]
      rw [List.getD_eq_getElem?_getD]
      rw [List.getElem?_eq_getElem (by rw [List.length_map]; exact hidxlt)]
      simp only [Option.getD_some, List.getElem_map]
      rw [List.getElem_indexOf hidxlt]
      rfl
    have hfold := hcf.2
    rw [hleafhash] at hfold
    rw [hfold]
    exact beq_self_eq_true _

/-- C5 (amended).  For every added entry, `prove_inclusion` returns a proof
that verifies as true against the root of the TREE containing the entry:
the proof's stored `root_hash` is that per-tree root, and `verify` folds
the sibling path against exactly that stored root, never against the
forest's `get_root_hash()` (to which it binds only when the log has a
single tree; see the counterexample for a two-tree log).  For an entry
never added, `prove_inclusion` returns `None`. -/
theorem C5_prove_inclusion (batches : List (List Nat)) (v : Nat)
    (hne : ∀ b ∈ batches, b ≠ []) :
    (v ∈ batches.flatten →
      ∃ p t, proveInclusion (batches.map mkTree) v = some p ∧
        t ∈ batches.map mkTree ∧ v ∈ t.sorted_values ∧
        p.root_hash = t.root_hash ∧ p.verify = true) ∧
    (v ∉ batches.flatten → proveInclusion (batches.map mkTree) v = none) := by
  constructor
  · intro hv
    obtain ⟨b, hb, hvb⟩ := List.mem_flatten.mp hv
    refine proveInclusion_some_verify _ v ?_ ?_
    · intro t ht
      obtain ⟨b', hb', rfl⟩ := List.mem_map.mp ht
      exact mkTree_wf b' (hne b' hb')
    · exact ⟨mkTree b, List.mem_map.mpr ⟨b, hb, rfl⟩, mem_sortNat.mpr hvb⟩
  · intro hv
    show (match findTreeContaining (batches.map mkTree) v with
      | none => none
      | some (tree_idx, tree) => _) = _
    rw [show findTreeContaining (batches.map mkTree) v = none from
      ftcGo_none _ 0 (by
        intro t ht hcont
        obtain ⟨b, hb, rfl⟩ := List.mem_map.mp ht
        exact hv (List.mem_flatten.mpr ⟨b, hb, mem_sortNat.mp (List.elem_iff.mp hcont)⟩))]

/-- Witness for C5 (amended): the spec's five-value log, value 30 present
and value 25 absent. -/
theorem C5_prove_inclusion_witness :
    (30 ∈ ([[10, 20, 30, 40, 50]] : List (List Nat)).flatten →
      ∃ p t, proveInclusion ([[10, 20, 30, 40, 50]].map mkTree) 30 = some p ∧
        t ∈ [[10, 20, 30, 40, 50]].map mkTree ∧ 30 ∈ t.sorted_values ∧
        p.root_hash = t.root_hash ∧ p.verify = true) ∧
    (25 ∉ ([[10, 20, 30, 40, 50]] : List (List Nat)).flatten →
      proveInclusion ([[10, 20, 30, 40, 50]].map mkTree) 25 = none) :=
  ⟨(C5_prove_inclusion [[10, 20, 30, 40, 50]] 30 (by decide)).1,
   (C5_prove_inclusion [[10, 20, 30, 40, 50]] 25 (by decide)).2⟩

/-- Counterexample to C5 as stated: in the two-tree log over the batches
`[10]` and `[20, 30]`, `prove_inclusion 10` returns a proof that verifies,
but its `root_hash` is the FIRST tree's root, while `get_root_hash()` is
`hash_roots` of both roots — the proof does not verify against the forest
root, and `verify` never consults `get_root_hash()` at all. -/
theorem C5_counterexample :
    (proveInclusion ([[10], [20, 30]].map mkTree) 10).isSome = true ∧
    (proveInclusion ([[10], [20, 30]].map mkTree) 10).all
      (fun p => p.verify) = true ∧
    (proveInclusion ([[10], [20, 30]].map mkTree) 10).map InclusionProof.root_hash =
      some (mkTree [10]).root_hash ∧
    getRootHash ([[10], [20, 30]].map mkTree) =
      some (hash_roots [(mkTree [10]).root_hash, (mkTree [20, 30]).root_hash]) ∧
    (proveInclusion ([[10], [20, 30]].map mkTree) 10).map InclusionProof.root_hash ≠
      getRootHash ([[10], [20, 30]].map mkTree) :=
  ⟨by decide, by decide, by decide, by decide, by decide⟩

/-! ## Predecessor/successor scan and `get_all_values` -/

theorem tlog_concat_eq_flatten : ∀ (trees : List MerkleTree) (a : List Nat),
    trees.foldl (fun acc t => acc ++ t.sorted_values) a =
      a ++ (trees.map MerkleTree.sorted_values).flatten
  | [], a => by simp
  | t :: rest, a => by
      simp only [List.foldl_cons, List.map_cons, List.flatten_cons]
      rw [tlog_concat_eq_flatten rest (a ++ t.sorted_values), List.append_assoc]

theorem mem_getAllValues {v : Nat} {trees : List MerkleTree} :
    v ∈ getAllValues trees ↔ ∃ t ∈ trees, v ∈ t.sorted_values := by
  unfold getAllValues
  rw [mem_sortNat, tlog_concat_eq_flatten, List.nil_append, List.mem_flatten]
  constructor
  · rintro ⟨l, hl, hv⟩
    obtain ⟨t, ht, rfl⟩ := List.mem_map.mp hl
    exact ⟨t, ht, hv⟩
  · rintro ⟨t, ht, hv⟩
    exact ⟨t.sorted_values, List.mem_map.mpr ⟨t, ht, rfl⟩, hv⟩

theorem getAllValues_sorted (trees : List MerkleTree) :
    (getAllValues trees).Pairwise (· ≤ ·) :=
  sortNat_sorted _

theorem getLast?_cons_or (v : Nat) : ∀ (l : List Nat),
    (v :: l).getLast? = l.getLast?.or (some v)
  | [] => rfl
  | w :: ws => by
      rw [List.getLast?_cons_cons, getLast?_cons_or w ws, Option.or_assoc]
      rfl

/-- The `for v in all_values` loop of `prove_exclusion` on a sorted list:
the predecessor is the last value `< t` (falling back to the accumulator)
and the successor is the first value `> t`. -/
theorem predSuccLoop_spec (t : Nat) : ∀ (l : List Nat), l.Pairwise (· ≤ ·) →
    ∀ (p0 : Option Nat),
    predSuccLoop t l p0 =
      ((l.filter (fun v => v < t)).getLast?.or p0,
       (l.filter (fun v => t < v)).head?)
  | [], _, p0 => by simp [predSuccLoop]
  | v :: rest, h, p0 => by
      obtain ⟨hv, ht⟩ := List.pairwise_cons.mp h
      simp only [predSuccLoop]
      rcases Nat.lt_trichotomy v t with hvt | hvt | hvt
      · rw [if_pos hvt]
        rw [predSuccLoop_spec t rest ht (some v)]
        rw [List.filter_cons_of_pos (by simpa using hvt),
          List.filter_cons_of_neg (by simp only [decide_eq_true_eq]; omega),
          getLast?_cons_or, Option.or_assoc]
        rfl
      · subst hvt
        rw [if_neg (by omega), if_neg (by omega)]
        rw [predSuccLoop_spec v rest ht p0]
        rw [List.filter_cons_of_neg (by simp only [decide_eq_true_eq]; omega),
          List.filter_cons_of_neg (by simp only [decide_eq_true_eq]; omega)]
      · rw [if_neg (by omega), if_pos hvt]
        rw [List.filter_cons_of_neg (by simp only [decide_eq_true_eq]; omega),
          List.filter_cons_of_pos (by simpa using hvt)]
        rw [show rest.filter (fun w => decide (w < t)) = [] from
          List.filter_eq_nil_iff.mpr (fun a ha => by
            have := hv a ha
            simp only [decide_eq_true_eq]
            omega)]
        rfl

theorem foldl_min_of_le : ∀ (xs : List Nat) (x : Nat), (∀ y ∈ xs, x ≤ y) →
    xs.foldl min x = x
  | [], _, _ => rfl
  | y :: ys, x, h => by
      simp only [List.foldl_cons]
      rw [Nat.min_eq_left (h y (by simp))]
      exact foldl_min_of_le ys x (fun z hz => h z (by simp [hz]))

theorem sorted_min?_eq_head? : ∀ (l : List Nat), l.Pairwise (· ≤ ·) →
    l.min? = l.head?
  | [], _ => rfl
  | x :: xs, h => by
      show some (xs.foldl min x) = some x
      rw [foldl_min_of_le xs x (List.pairwise_cons.mp h).1]

theorem sorted_max?_eq_getLast? : ∀ (l : List Nat), l.Pairwise (· ≤ ·) →
    l.max? = l.getLast?
  | [], _ => rfl
  | [x], _ => rfl
  | x :: y :: ys, h => by
      have hx : x ≤ y := (List.pairwise_cons.mp h).1 y (by simp)
      have ht := (List.pairwise_cons.mp h).2
      show some (List.foldl max x (y :: ys)) = _
      rw [List.getLast?_cons_cons]
      rw [show List.foldl max x (y :: ys) = List.foldl max y ys from by
        show List.foldl max (max x y) ys = _
        rw [Nat.max_eq_right hx]]
      exact sorted_max?_eq_getLast? (y :: ys) ht

/-- Reduction of `prove_exclusion` in the nonempty, non-member case. -/
theorem proveExclusion_eq (trees : List MerkleTree) (t : Nat)
    (hc : tlogContains trees t = false)
    (hne : (getAllValues trees).isEmpty = false) :
    proveExclusion trees t =
      some (ExclusionProof.mk t
        (((getAllValues trees).filter (fun v => decide (v < t))).getLast?)
        (((getAllValues trees).filter (fun v => decide (t < v))).head?)
        (inclOpt trees (((getAllValues trees).filter (fun v => decide (v < t))).getLast?))
        (inclOpt trees (((getAllValues trees).filter (fun v => decide (t < v))).head?))
        (some (overallRoot trees
          (inclOpt trees (((getAllValues trees).filter (fun v => decide (v < t))).getLast?))
          (inclOpt trees (((getAllValues trees).filter (fun v => decide (t < v))).head?))))) := by
  unfold proveExclusion
  rw [hc, if_neg Bool.false_ne_true, hne, if_neg Bool.false_ne_true]
  rw [predSuccLoop_spec t _ (getAllValues_sorted trees) none, Option.or_none]

/-- C4.  For an entry not contained in the log, `prove_exclusion` returns a
proof whose predecessor is the greatest stored value below the target (or
`None`), whose successor is the least stored value above it (or `None`),
and which verifies; for a contained entry it returns `None`. -/
theorem C4_prove_exclusion (batches : List (List Nat)) (t : Nat)
    (hne : ∀ b ∈ batches, b ≠ []) :
    (tlogContains (batches.map mkTree) t = true →
      proveExclusion (batches.map mkTree) t = none) ∧
    (tlogContains (batches.map mkTree) t = false →
      ∃ p, proveExclusion (batches.map mkTree) t = some p ∧
        p.predecessor = ((getAllValues (batches.map mkTree)).filter
          (fun v => decide (v < t))).max? ∧
        p.successor = ((getAllValues (batches.map mkTree)).filter
          (fun v => decide (t < v))).min? ∧
        p.verify = true) := by
  have hwf : ∀ u ∈ batches.map mkTree, TreeWF u := by
    intro u hu
    obtain ⟨b, hb, rfl⟩ := List.mem_map.mp hu
    exact mkTree_wf b (hne b hb)
  have hsorted := getAllValues_sorted (batches.map mkTree)
  constructor
  · intro hc
    unfold proveExclusion
    rw [hc, if_pos rfl]
  · intro hc
    cases hempty : (getAllValues (batches.map mkTree)).isEmpty
    case false =>
        -- the generic case: compute the record and verify it field by field
        have hmax := sorted_max?_eq_getLast?
          ((getAllValues (batches.map mkTree)).filter (fun v => decide (v < t)))
          (hsorted.filter _)
        have hmin := sorted_min?_eq_head?
          ((getAllValues (batches.map mkTree)).filter (fun v => decide (t < v)))
          (hsorted.filter _)
        refine ⟨_, proveExclusion_eq (batches.map mkTree) t hc hempty,
          hmax.symm, hmin.symm, ?_⟩
        -- the verification: all four checks of `verify` pass
        have hpredFacts : ∀ pv, (((getAllValues (batches.map mkTree)).filter
            (fun v => decide (v < t))).getLast? = some pv) →
            pv < t ∧ ∃ pp, proveInclusion (batches.map mkTree) pv = some pp ∧
              pp.verify = true := by
          intro pv hpv
          have hmem := List.mem_of_mem_getLast? hpv
          have hlt : pv < t := by
            have := (List.mem_filter.mp hmem).2
            simpa using this
          have hmemAll : pv ∈ getAllValues (batches.map mkTree) :=
            (List.mem_filter.mp hmem).1
          obtain ⟨tr, htr, hvtr⟩ := mem_getAllValues.mp hmemAll
          obtain ⟨pp, _, hpp, _, _, _, hppv⟩ :=
            proveInclusion_some_verify _ pv hwf ⟨tr, htr, hvtr⟩
          exact ⟨hlt, pp, hpp, hppv⟩
        have hsuccFacts : ∀ sv, (((getAllValues (batches.map mkTree)).filter
            (fun v => decide (t < v))).head? = some sv) →
            t < sv ∧ ∃ sp, proveInclusion (batches.map mkTree) sv = some sp ∧
              sp.verify = true := by
          intro sv hsv
          have hmem := List.mem_of_mem_head? hsv
          have hlt : t < sv := by
            have := (List.mem_filter.mp hmem).2
            simpa using this
          have hmemAll : sv ∈ getAllValues (batches.map mkTree) :=
            (List.mem_filter.mp hmem).1
          obtain ⟨tr, htr, hvtr⟩ := mem_getAllValues.mp hmemAll
          obtain ⟨sp, _, hsp, _, _, _, hspv⟩ :=
            proveInclusion_some_verify _ sv hwf ⟨tr, htr, hvtr⟩
          exact ⟨hlt, sp, hsp, hspv⟩
        cases hP : ((getAllValues (batches.map mkTree)).filter
            (fun v => decide (v < t))).getLast? with
        | none =>
            cases hS : ((getAllValues (batches.map mkTree)).filter
                (fun v => decide (t < v))).head? with
            | none => rfl
            | some sv =>
                obtain ⟨hlt, sp, hsp, hspv⟩ := hsuccFacts sv hS
                simp [ExclusionProof.verify, inclOpt, hsp, hspv]
                all_goals omega
        | some pv =>
            obtain ⟨hplt, pp, hpp, hppv⟩ := hpredFacts pv hP
            cases hS : ((getAllValues (batches.map mkTree)).filter
                (fun v => decide (t < v))).head? with
            | none =>
                simp [ExclusionProof.verify, inclOpt, hpp, hppv]
                all_goals omega
            | some sv =>
                obtain ⟨hslt, sp, hsp, hspv⟩ := hsuccFacts sv hS
                simp [ExclusionProof.verify, inclOpt, hpp, hsp, hppv, hspv]
                all_goals omega
    case true =>
        have hnil : getAllValues (batches.map mkTree) = [] :=
          List.isEmpty_iff.mp hempty
        refine ⟨ExclusionProof.mk t none none none none
          (getRootHash (batches.map mkTree)), ?_, ?_, ?_, rfl⟩
        · unfold proveExclusion
          rw [hc, if_neg Bool.false_ne_true, hempty, if_pos rfl]
        · rw [hnil]
          rfl
        · rw [hnil]
          rfl

/-- Witness for C4: the spec's five-value log with absent target 25 and
present target 20. -/
theorem C4_prove_exclusion_witness :
    (tlogContains ([[10, 20, 30, 40, 50]].map mkTree) 20 = true →
      proveExclusion ([[10, 20, 30, 40, 50]].map mkTree) 20 = none) ∧
    (tlogContains ([[10, 20, 30, 40, 50]].map mkTree) 25 = false →
      ∃ p, proveExclusion ([[10, 20, 30, 40, 50]].map mkTree) 25 = some p ∧
        p.predecessor = ((getAllValues ([[10, 20, 30, 40, 50]].map mkTree)).filter
          (fun v => decide (v < 25))).max? ∧
        p.successor = ((getAllValues ([[10, 20, 30, 40, 50]].map mkTree)).filter
          (fun v => decide (25 < v))).min? ∧
        p.verify = true) :=
  ⟨(C4_prove_exclusion [[10, 20, 30, 40, 50]] 20 (by decide)).1,
   (C4_prove_exclusion [[10, 20, 30, 40, 50]] 25 (by decide)).2⟩

/-- The result of merging the two concrete singleton trees with entries
`"A"*32` and `"B"*32` (the dummy-tree fallback is never reached). -/
def c3tree : Tree :=
  match Tree.merge ⟨1, [List.replicate 32 65]⟩ ⟨1, [List.replicate 32 66]⟩ with
  | .ok t => t
  | .error _ => ⟨0, []⟩

/-- Counterexample to C3 as stated: in the blob produced by merging the
singleton trees of `"A"*32` and `"B"*32`, the internal slot (slot 2) is NOT
`H("NODE:" ∥ l ∥ r)` of its children's slots — it is the untagged
`sha256(l + r)`. -/
theorem C3_counterexample :
    Tree.merge ⟨1, [List.replicate 32 65]⟩ ⟨1, [List.replicate 32 66]⟩ = .ok c3tree ∧
    c3tree.get_data_entry 0 = List.replicate 32 65 ∧
    c3tree.get_data_entry 1 = List.replicate 32 66 ∧
    c3tree.get_data_entry 2 ≠
      hash_pair (c3tree.get_data_entry 0) (c3tree.get_data_entry 1) ∧
    c3tree.get_data_entry 2 =
      sha256 (c3tree.get_data_entry 0 ++ c3tree.get_data_entry 1) := by
  refine ⟨by decide, by decide, by decide, by decide, by decide⟩

/-- Witness for C3 (amended): the two singleton trees of height 1. -/
theorem C3_internal_slots_witness :
    ((⟨1, [List.replicate 32 65]⟩ : Tree).height = (⟨1, [List.replicate 32 66]⟩ : Tree).height) ∧
    (1 ≤ (⟨1, [List.replicate 32 65]⟩ : Tree).height) ∧
    ((∃ t, (⟨1, [List.replicate 32 65]⟩ : Tree).merge ⟨1, [List.replicate 32 66]⟩ = .ok t ∧
       t.blob = layoutH (⟨1, [List.replicate 32 65]⟩ : Tree).height
         (mergeSorted (⟨1, [List.replicate 32 65]⟩ : Tree).leaves
           (⟨1, [List.replicate 32 66]⟩ : Tree).leaves) ∧
       t.leaves = mergeSorted (⟨1, [List.replicate 32 65]⟩ : Tree).leaves
         (⟨1, [List.replicate 32 66]⟩ : Tree).leaves) ∧
     (∀ (k : Nat) (L1 L2 : List Bytes), L1.length = 2 ^ k →
       layoutH (k + 1) (L1 ++ L2) =
         layoutH k L1 ++ layoutH k L2 ++
           [sha256 (buildRootH k L1 ++ buildRootH k L2)] ∧
       buildRootH (k + 1) (L1 ++ L2) = sha256 (buildRootH k L1 ++ buildRootH k L2))) :=
  ⟨rfl, by decide,
   C3_internal_slots ⟨1, [List.replicate 32 65]⟩ ⟨1, [List.replicate 32 66]⟩
     rfl (by decide)⟩

/-- C10.  An `ExclusionProof` whose predecessor, successor and both inclusion
proofs are all `None` verifies for every target and every `root_hash`; and
`verify` never reads `root_hash`: replacing that field by any value leaves
the verdict unchanged, so verification does not bind the proof to a forest
root. -/
theorem C10_exclusion_verify_trivial :
    (∀ (t : Nat) (rh : Option Bytes),
      ExclusionProof.verify (ExclusionProof.mk t none none none none rh) = true) ∧
    (∀ (p : ExclusionProof) (rh : Option Bytes),
      ExclusionProof.verify (ExclusionProof.mk p.target p.predecessor p.successor
        p.predecessor_proof p.successor_proof rh) = ExclusionProof.verify p) :=
  ⟨fun _ _ => rfl, fun _ _ => rfl⟩

end MMT
